import Mathlib

/-! # Special judges of hr567/Ana: a shallow embedding

The repository ships six near-identical special judges for an "a + b"
problem.  Each one opens three files named on its command line, scans
decimal integers from two of them with `fscanf`, and returns `AC` (0) or
`WA` (1).

* A file is the list of characters still unread (`List Char`); a `FILE *`
  is `Option (List Char)`, where `none` is the null pointer that `fopen`
  returns for a path it cannot open.
* `conv_d` is the `%d` conversion directive of `fscanf`; `fscanf_d` and
  `fscanf_dd` are the calls `fscanf(f, "%d", &x)` and
  `fscanf(f, "%d%d", &x, &y)` with their return value, the contents of
  the variables after the call and the rest of the file.
* A `while` loop is a step function (one test of the condition followed
  by one run of the body) iterated by `run` under a fuel bound.
* Variables that the source leaves uninitialised are arguments of the
  model: the value they happen to hold is chosen by the caller.
-/

namespace Ana

/-! ## Constants of the sources -/

/-- The exit code `#define AC 0`. -/
def AC : Int := 0

/-- The exit code `#define WA 1`. -/
def WA : Int := 1

/-- The value `EOF` of `<stdio.h>`. -/
def EOF : Int := -1

/-! ## The `%d` conversion directive -/

/-- The characters `isspace` accepts in the "C" locale. -/
def isspace (c : Char) : Bool :=
  c == ' ' || c == '\t' || c == '\n' || c == '\x0b' || c == '\x0c' || c == '\r'

/-- The decimal digits. -/
def isdigit (c : Char) : Bool :=
  decide (48 ≤ c.toNat) && decide (c.toNat ≤ 57)

/-- Skips the white space a `%d` directive discards before its item. -/
def skipws : List Char → List Char
  | [] => []
  | c :: cs => if isspace c then skipws cs else c :: cs

/-- Reads the longest run of decimal digits, accumulating its value. -/
def digits (acc : Nat) : List Char → Nat × List Char
  | [] => (acc, [])
  | c :: cs => if isdigit c then digits (acc * 10 + (c.toNat - 48)) cs else (acc, c :: cs)

/-- What `strtol` makes of sign and magnitude: the value, saturated to the
range of a 64-bit `long`. -/
def strtol (neg : Bool) (n : Nat) : Int :=
  if neg then max (-(n : Int)) (-(2 : Int) ^ 63) else min (n : Int) ((2 : Int) ^ 63 - 1)

/-- Conversion of an integer to a 32-bit two's-complement `int`. -/
def toInt32 (v : Int) : Int :=
  (v + 2 ^ 31) % 2 ^ 32 - 2 ^ 31

/-- The `int` addition `a + b` of the sources (wraps modulo `2 ^ 32`). -/
def addInt (a b : Int) : Int :=
  toInt32 (a + b)

/-- Result of one conversion directive. -/
inductive Conv where
  /-- End of file was reached before any character of the item. -/
  | inputFailure
  /-- The next characters are not an integer; `rest` is left unread. -/
  | matchFailure (rest : List Char)
  /-- An integer was converted to `v`; `rest` is left unread. -/
  | value (v : Int) (rest : List Char)
  deriving DecidableEq, Repr

/-- The `%d` directive: skip white space, then read an optional sign and
a non-empty run of digits.  A sign that no digit follows is consumed and
the directive fails.  The value is the `long` that `strtol` returns,
stored into an `int`. -/
def conv_d (s : List Char) : Conv :=
  match skipws s with
  | [] => .inputFailure
  | c :: cs =>
    if c = '-' ∨ c = '+' then
      match cs with
      | [] => .matchFailure []
      | d :: ds =>
        if isdigit d then
          .value (toInt32 (strtol (c == '-') (digits 0 (d :: ds)).1)) (digits 0 (d :: ds)).2
        else .matchFailure (d :: ds)
    else if isdigit c then
      .value (toInt32 (strtol false (digits 0 (c :: cs)).1)) (digits 0 (c :: cs)).2
    else .matchFailure (c :: cs)

/-! ## The two `fscanf` calls of the sources -/

/-- State after `fscanf(f, "%d", &x)`. -/
structure Scan1 where
  /-- The value `fscanf` returns. -/
  ret : Int
  /-- The contents of `x` after the call. -/
  x : Int
  /-- The unread rest of the file. -/
  file : List Char
  deriving DecidableEq, Repr

/-- State after `fscanf(f, "%d%d", &x, &y)`. -/
structure Scan2 where
  /-- The value `fscanf` returns. -/
  ret : Int
  /-- The contents of `x` after the call. -/
  x : Int
  /-- The contents of `y` after the call. -/
  y : Int
  /-- The unread rest of the file. -/
  file : List Char
  deriving DecidableEq, Repr

/-- The call `fscanf(f, "%d", &x)`: `EOF` on an input failure, otherwise
the number of assignments; `x` keeps its old contents unless assigned. -/
def fscanf_d (f : List Char) (x : Int) : Scan1 :=
  match conv_d f with
  | .inputFailure => ⟨EOF, x, []⟩
  | .matchFailure rest => ⟨0, x, rest⟩
  | .value v rest => ⟨1, v, rest⟩

/-- The call `fscanf(f, "%d%d", &x, &y)`: `EOF` only when the input
failure comes before the first conversion; after one conversion a failure
of the second directive makes the call return 1 and leaves `y` as it was. -/
def fscanf_dd (f : List Char) (x y : Int) : Scan2 :=
  match conv_d f with
  | .inputFailure => ⟨EOF, x, y, []⟩
  | .matchFailure rest => ⟨0, x, y, rest⟩
  | .value v rest =>
    match conv_d rest with
    | .inputFailure => ⟨1, v, y, []⟩
    | .matchFailure rest2 => ⟨1, v, y, rest2⟩
    | .value w rest2 => ⟨2, v, w, rest2⟩

/-! ## Runs -/

/-- How a run of `main` ends. -/
inductive Outcome where
  /-- The program returned `code` from `main`. -/
  | exit (code : Int)
  /-- The program passed a null `FILE *` to `fscanf`: no exit code of its
  own (the behaviour is undefined; in practice the process is killed). -/
  | undefined
  deriving DecidableEq, Repr

/-- One trip round a `while` loop: go on with a new state, or leave
`main` with an outcome. -/
inductive Ctl (σ : Type) where
  /-- The body ran to its end; the condition is tested again. -/
  | next (s : σ)
  /-- `main` is left. -/
  | stop (o : Outcome)

/-- Iterates a loop for at most `fuel` trips; `none` when the fuel runs
out before `main` is left. -/
def run {σ : Type} (step : σ → Ctl σ) : Nat → σ → Option Outcome
  | 0, _ => none
  | fuel + 1, s =>
    match step s with
    | .next s' => run step fuel s'
    | .stop o => some o

/-- The values a variable declared in the loop body without initialiser
holds on entry to the body, trip by trip. -/
abbrev Junk := Nat → Int

/-- The junk of the trips after the current one. -/
def Junk.tail (j : Junk) : Junk := fun k => j (k + 1)

/-! ## The loop of `spj.0.cpp`, `spj_0.cpp` and `spj.c`

```
int a, b;
while (fscanf(f_in, "%d%d", &a, &b) != EOF) {
  int ans;
  if (fscanf(f_user, "%d", &ans) == EOF || ans != a + b) {
    return WA;
  }
}
return AC;
```
(`ans` and `f_user` are called `output` and `f_out` in `spj_0.cpp` and
`spj.c`.) -/

/-- Variables of the sum-checking loop. -/
structure SumState where
  /-- The stream read with `"%d%d"`. -/
  f_in : Option (List Char)
  /-- The stream read with `"%d"`. -/
  f_user : Option (List Char)
  /-- The variable `a`. -/
  a : Int
  /-- The variable `b`. -/
  b : Int
  /-- What the body's own variable holds on entry, trip by trip. -/
  junk : Junk

/-- One test of the condition and one run of the body; when the condition
fails, control reaches the `return AC` that follows the loop. -/
def sumStep (s : SumState) : Ctl SumState :=
  match s.f_in with
  | none => .stop .undefined
  | some fin =>
    if (fscanf_dd fin s.a s.b).ret ≠ EOF then
      match s.f_user with
      | none => .stop .undefined
      | some fu =>
        if (fscanf_d fu (s.junk 0)).ret = EOF ∨
            (fscanf_d fu (s.junk 0)).x ≠ addInt (fscanf_dd fin s.a s.b).x (fscanf_dd fin s.a s.b).y then
          .stop (.exit WA)
        else
          .next
            { f_in := some (fscanf_dd fin s.a s.b).file
              f_user := some (fscanf_d fu (s.junk 0)).file
              a := (fscanf_dd fin s.a s.b).x
              b := (fscanf_dd fin s.a s.b).y
              junk := s.junk.tail }
    else .stop (.exit AC)

/-! ## The loop of `spj.1.cpp` and `spj_1.cpp`

```
int std_ans;
while (fscanf(f_out, "%d", &std_ans) != EOF) {
  int ans;
  if (fscanf(f_user, "%d", &ans) == EOF || ans != std_ans) {
    return WA;
  }
}
return AC;
```
(`std_ans`, `ans`, `f_out`, `f_user` are called `answer`, `output`,
`f_ans`, `f_out` in `spj_1.cpp`.) -/

/-- Variables of the value-checking loop. -/
structure ValState where
  /-- The stream of precomputed answers. -/
  f_out : Option (List Char)
  /-- The stream under test. -/
  f_user : Option (List Char)
  /-- The variable `std_ans`. -/
  std_ans : Int
  /-- What the body's own variable holds on entry, trip by trip. -/
  junk : Junk

/-- One test of the condition and one run of the body; when the condition
fails, control reaches the `return AC` that follows the loop. -/
def valStep (s : ValState) : Ctl ValState :=
  match s.f_out with
  | none => .stop .undefined
  | some fo =>
    if (fscanf_d fo s.std_ans).ret ≠ EOF then
      match s.f_user with
      | none => .stop .undefined
      | some fu =>
        if (fscanf_d fu (s.junk 0)).ret = EOF ∨
            (fscanf_d fu (s.junk 0)).x ≠ (fscanf_d fo s.std_ans).x then
          .stop (.exit WA)
        else
          .next
            { f_out := some (fscanf_d fo s.std_ans).file
              f_user := some (fscanf_d fu (s.junk 0)).file
              std_ans := (fscanf_d fo s.std_ans).x
              junk := s.junk.tail }
    else .stop (.exit AC)

/-! ## The two loops of `spj.cpp`

`METHOD == 1`:
```
int ans = 0;
while (fscanf(f_user, "%d", &ans) != EOF) {
  int a, b;
  if (fscanf(f_in, "%d%d", &a, &b) != EOF) {
    if (a + b != ans) {
      return WA;
    }
  }
}
```
`METHOD == 2`: the same with `int std_ans;`, `"%d"` and
`ans != std_ans`. -/

/-- Variables of the loops of `spj.cpp`. -/
structure UserState where
  /-- The stream under test, which drives the loop. -/
  f_user : Option (List Char)
  /-- The stream of the problem's input. -/
  f_in : Option (List Char)
  /-- The variable `ans`. -/
  ans : Int
  /-- What `a` (or `std_ans`) holds on entry to the body, trip by trip. -/
  junkA : Junk
  /-- What `b` holds on entry to the body, trip by trip. -/
  junkB : Junk

/-- One trip of the loop under `METHOD == 1`; when the condition fails,
control reaches the `return AC` after the `#endif`. -/
def userStep1 (s : UserState) : Ctl UserState :=
  match s.f_user with
  | none => .stop .undefined
  | some fu =>
    if (fscanf_d fu s.ans).ret ≠ EOF then
      match s.f_in with
      | none => .stop .undefined
      | some fin =>
        if (fscanf_dd fin (s.junkA 0) (s.junkB 0)).ret ≠ EOF ∧
            addInt (fscanf_dd fin (s.junkA 0) (s.junkB 0)).x (fscanf_dd fin (s.junkA 0) (s.junkB 0)).y
              ≠ (fscanf_d fu s.ans).x then
          .stop (.exit WA)
        else
          .next
            { f_user := some (fscanf_d fu s.ans).file
              f_in := some (fscanf_dd fin (s.junkA 0) (s.junkB 0)).file
              ans := (fscanf_d fu s.ans).x
              junkA := s.junkA.tail
              junkB := s.junkB.tail }
    else .stop (.exit AC)

/-- One trip of the loop under `METHOD == 2`; when the condition fails,
control reaches the `return AC` after the `#endif`. -/
def userStep2 (s : UserState) : Ctl UserState :=
  match s.f_user with
  | none => .stop .undefined
  | some fu =>
    if (fscanf_d fu s.ans).ret ≠ EOF then
      match s.f_in with
      | none => .stop .undefined
      | some fin =>
        if (fscanf_d fin (s.junkA 0)).ret ≠ EOF ∧
            (fscanf_d fu s.ans).x ≠ (fscanf_d fin (s.junkA 0)).x then
          .stop (.exit WA)
        else
          .next
            { f_user := some (fscanf_d fu s.ans).file
              f_in := some (fscanf_d fin (s.junkA 0)).file
              ans := (fscanf_d fu s.ans).x
              junkA := s.junkA.tail
              junkB := s.junkB.tail }
    else .stop (.exit AC)

/-! ## The six programs

Every `main` takes the fuel of its loop, the three streams that `fopen`
returned for `args[1]`, `args[2]`, `args[3]`, and the contents of the
variables that the source does not initialise. -/

namespace Example.Spj0

/-- The function `main` of `src/example/spj.0.cpp`: `f_in = args[1]`,
`f_out = args[2]` (never read), `f_user = args[3]`. -/
def main (fuel : Nat) (args1 args2 args3 : Option (List Char)) (a b : Int) (ans : Junk) :
    Option Outcome :=
  let f_in := args1
  let _f_out := args2
  let f_user := args3
  run sumStep fuel { f_in := f_in, f_user := f_user, a := a, b := b, junk := ans }

end Example.Spj0

namespace Example.Spj1

/-- The function `main` of `src/example/spj.1.cpp`: `f_in = args[1]`
(never read), `f_out = args[2]`, `f_user = args[3]`. -/
def main (fuel : Nat) (args1 args2 args3 : Option (List Char)) (std_ans : Int) (ans : Junk) :
    Option Outcome :=
  let _f_in := args1
  let f_out := args2
  let f_user := args3
  run valStep fuel { f_out := f_out, f_user := f_user, std_ans := std_ans, junk := ans }

end Example.Spj1

namespace ExampleData.Spj0

/-- The function `main` of `src/example_data/spj_0.cpp`: `f_in = args[1]`,
`f_ans = args[2]` (never read), `f_out = args[3]`. -/
def main (fuel : Nat) (args1 args2 args3 : Option (List Char)) (a b : Int) (output : Junk) :
    Option Outcome :=
  let f_in := args1
  let _f_ans := args2
  let f_out := args3
  run sumStep fuel { f_in := f_in, f_user := f_out, a := a, b := b, junk := output }

end ExampleData.Spj0

namespace ExampleData.Spj1

/-- The function `main` of `src/example_data/spj_1.cpp`: `f_in = args[1]`
(never read), `f_ans = args[2]`, `f_out = args[3]`. -/
def main (fuel : Nat) (args1 args2 args3 : Option (List Char)) (answer : Int) (output : Junk) :
    Option Outcome :=
  let _f_in := args1
  let f_ans := args2
  let f_out := args3
  run valStep fuel { f_out := f_ans, f_user := f_out, std_ans := answer, junk := output }

end ExampleData.Spj1

namespace SpjC

/-- The function `main` of
`src/examples/workspace/spj_c/problem/extern_program/spj.c`:
`f_in = args[1]`, `f_out = args[2]`, `f_ans = args[3]` (never read). -/
def main (fuel : Nat) (args1 args2 args3 : Option (List Char)) (a b : Int) (output : Junk) :
    Option Outcome :=
  let f_in := args1
  let f_out := args2
  let _f_ans := args3
  run sumStep fuel { f_in := f_in, f_user := f_out, a := a, b := b, junk := output }

end SpjC

namespace Example.Spj

/-- The line `#define METHOD 1` of `src/example/spj.cpp`. -/
def METHOD : Option Int := some 1

/-- The function `main` of `src/example/spj.cpp` for a given state of the
preprocessor symbol `METHOD` (`none`: not defined): `f_in = args[1]`,
`f_out = args[2]` (never read), `f_user = args[3]`; `ans` starts at 0. -/
def mainWith (method : Option Int) (fuel : Nat) (args1 args2 args3 : Option (List Char))
    (a b : Junk) : Option Outcome :=
  let f_in := args1
  let _f_out := args2
  let f_user := args3
  match method with
  | none => some (.exit (-1))
  | some m =>
    if m = 1 then
      run userStep1 fuel { f_user := f_user, f_in := f_in, ans := 0, junkA := a, junkB := b }
    else if m = 2 then
      run userStep2 fuel { f_user := f_user, f_in := f_in, ans := 0, junkA := a, junkB := b }
    else some (.exit AC)

/-- The function `main` of `src/example/spj.cpp` as it is compiled. -/
def main (fuel : Nat) (args1 args2 args3 : Option (List Char)) (a b : Junk) : Option Outcome :=
  mainWith METHOD fuel args1 args2 args3 a b

end Example.Spj

/-! ## Streams of integers

The files the judges are meant for hold decimal integers separated by
white space.  `ints s` lists the integers that successive `%d`
conversions read from `s` up to the end of the file, and is `none` when a
conversion meets something else. -/

/-- The integers of a file, by at most `n` conversions. -/
def intsAux : Nat → List Char → Option (List Int)
  | 0, _ => none
  | n + 1, s =>
    match conv_d s with
    | .inputFailure => some []
    | .matchFailure _ => none
    | .value v rest => (intsAux n rest).map (fun vs => v :: vs)

/-- The integers of a file (every conversion consumes a character, so one
more conversion than the file has characters is enough). -/
def ints (s : List Char) : Option (List Int) :=
  intsAux (s.length + 1) s

/-- The integers of a sequence of pairs, in file order. -/
def pairInts : List (Int × Int) → List Int
  | [] => []
  | p :: ps => p.1 :: p.2 :: pairInts ps

/-- The value the sum-checking loop expects for each pair: the `int` sum
of its components. -/
def pairSums (ps : List (Int × Int)) : List Int :=
  ps.map (fun p => addInt p.1 p.2)

/-! ## Loop-iteration boundaries -/

/-- The state of a loop after `k` complete trips (the `k`-th
loop-iteration boundary); `none` when `main` is left before that. -/
def stateAfter {σ : Type} (step : σ → Ctl σ) : Nat → σ → Option σ
  | 0, s => some s
  | k + 1, s =>
    match step s with
    | .next s' => stateAfter step k s'
    | .stop _ => none

/-! ## Facts about scanning -/

theorem skipws_length_le (s : List Char) : (skipws s).length ≤ s.length := by
  induction s with
  | nil => simp [skipws]
  | cons c cs ih =>
    unfold skipws
    split
    · simp only [List.length_cons]; omega
    · exact Nat.le_refl _

theorem digits_length_le (s : List Char) (acc : Nat) : (digits acc s).2.length ≤ s.length := by
  induction s generalizing acc with
  | nil => simp [digits]
  | cons c cs ih =>
    unfold digits
    split
    · have := ih (acc * 10 + (c.toNat - 48))
      simp only [List.length_cons]; omega
    · exact Nat.le_refl _

theorem digits_length_lt (c : Char) (cs : List Char) (acc : Nat) (h : isdigit c = true) :
    (digits acc (c :: cs)).2.length < (c :: cs).length := by
  unfold digits
  rw [if_pos h]
  have := digits_length_le cs (acc * 10 + (c.toNat - 48))
  simp only [List.length_cons]; omega

/-- A successful conversion consumes at least one character. -/
theorem conv_d_value_lt {s : List Char} {v : Int} {rest : List Char}
    (h : conv_d s = .value v rest) : rest.length < s.length := by
  have hs := skipws_length_le s
  unfold conv_d at h
  split at h
  · cases h
  · rename_i c cs hsk
    rw [hsk] at hs
    split at h
    · split at h
      · cases h
      · rename_i d ds
        split at h
        · rename_i hd
          injection h with _ hr
          have := digits_length_lt d ds 0 hd
          rw [hr] at this
          simp only [List.length_cons] at this hs; omega
        · cases h
    · split at h
      · rename_i hd
        injection h with _ hr
        have := digits_length_lt c cs 0 hd
        rw [hr] at this
        simp only [List.length_cons] at this hs; omega
      · cases h

theorem intsAux_eq_of_lt (n : Nat) : ∀ (m : Nat) (s : List Char), s.length < n → s.length < m →
    intsAux n s = intsAux m s := by
  induction n with
  | zero => intro m s h; omega
  | succ k ih =>
    intro m s hn hm
    cases m with
    | zero => omega
    | succ l =>
      unfold intsAux
      cases hc : conv_d s with
      | inputFailure => rfl
      | matchFailure rest => rfl
      | value v rest =>
        have := conv_d_value_lt hc
        simp only
        rw [ih l rest (by omega) (by omega)]

/-- The integers of a file, one conversion at a time. -/
theorem ints_unfold (s : List Char) :
    ints s = match conv_d s with
      | .inputFailure => some []
      | .matchFailure _ => none
      | .value v rest => (ints rest).map (fun vs => v :: vs) := by
  unfold ints
  rw [intsAux]
  cases hc : conv_d s with
  | inputFailure => rfl
  | matchFailure rest => rfl
  | value v rest =>
    have := conv_d_value_lt hc
    simp only
    rw [intsAux_eq_of_lt s.length (rest.length + 1) rest (by omega) (by omega)]

theorem ints_nil {s : List Char} (h : ints s = some []) : conv_d s = .inputFailure := by
  rw [ints_unfold] at h
  cases hc : conv_d s with
  | inputFailure => rfl
  | matchFailure rest => rw [hc] at h; cases h
  | value v rest =>
    rw [hc] at h
    simp only [Option.map_eq_some'] at h
    obtain ⟨_, _, h⟩ := h
    cases h

theorem ints_cons {s : List Char} {v : Int} {vs : List Int} (h : ints s = some (v :: vs)) :
    ∃ rest, conv_d s = .value v rest ∧ ints rest = some vs := by
  rw [ints_unfold] at h
  cases hc : conv_d s with
  | inputFailure => rw [hc] at h; cases h
  | matchFailure rest => rw [hc] at h; cases h
  | value w rest =>
    rw [hc] at h
    simp only [Option.map_eq_some'] at h
    obtain ⟨us, hu, h⟩ := h
    injection h with h1 h2
    subst h1; subst h2
    exact ⟨rest, rfl, hu⟩

theorem fscanf_d_eof {f : List Char} (x : Int) (h : conv_d f = .inputFailure) :
    fscanf_d f x = ⟨EOF, x, []⟩ := by
  simp [fscanf_d, h]

theorem fscanf_d_value {f : List Char} {v : Int} {rest : List Char} (x : Int)
    (h : conv_d f = .value v rest) : fscanf_d f x = ⟨1, v, rest⟩ := by
  simp [fscanf_d, h]

theorem fscanf_dd_eof {f : List Char} (x y : Int) (h : conv_d f = .inputFailure) :
    fscanf_dd f x y = ⟨EOF, x, y, []⟩ := by
  simp [fscanf_dd, h]

theorem fscanf_dd_value {f r1 r2 : List Char} {v w : Int} (x y : Int)
    (h1 : conv_d f = .value v r1) (h2 : conv_d r1 = .value w r2) :
    fscanf_dd f x y = ⟨2, v, w, r2⟩ := by
  simp [fscanf_dd, h1, h2]

/-! ## What the loops compute on streams of integers -/

/-- The sum-checking loop on an input of pairs and a candidate of
integers: `AC` exactly when the expected sums are an initial segment of
the candidate's integers. -/
theorem run_sumStep_ints (P : List (Int × Int)) :
    ∀ (fuel : Nat) (fin fu : List Char) (C : List Int) (a b : Int) (junk : Junk),
      ints fin = some (pairInts P) → ints fu = some C → fin.length < fuel →
      run sumStep fuel { f_in := some fin, f_user := some fu, a := a, b := b, junk := junk }
        = some (.exit (if pairSums P <+: C then AC else WA)) := by
  induction P with
  | nil =>
    intro fuel fin fu C a b junk hin _ hfuel
    obtain ⟨k, rfl⟩ : ∃ k, fuel = k + 1 := ⟨fuel - 1, by omega⟩
    have h := fscanf_dd_eof a b (ints_nil hin)
    simp [run, sumStep, h, pairSums]
  | cons p P ih =>
    intro fuel fin fu C a b junk hin hu hfuel
    obtain ⟨k, rfl⟩ : ∃ k, fuel = k + 1 := ⟨fuel - 1, by omega⟩
    obtain ⟨r1, h1, hin1⟩ := ints_cons hin
    obtain ⟨r2, h2, hin2⟩ := ints_cons hin1
    have hl1 := conv_d_value_lt h1
    have hl2 := conv_d_value_lt h2
    have h := fscanf_dd_value a b h1 h2
    cases C with
    | nil =>
      have hq := fscanf_d_eof (junk 0) (ints_nil hu)
      simp [run, sumStep, h, hq, pairSums, EOF]
    | cons c C =>
      obtain ⟨ru, hc, hu1⟩ := ints_cons hu
      have hq := fscanf_d_value (junk 0) hc
      by_cases heq : c = addInt p.1 p.2
      · have := ih k r2 ru C p.1 p.2 junk.tail hin2 hu1 (by omega)
        simp [run, sumStep, h, hq, EOF, heq, this, pairSums, List.cons_prefix_cons]
      · have hne : ¬ (addInt p.1 p.2 = c) := fun e => heq e.symm
        simp [run, sumStep, h, hq, EOF, heq, hne, pairSums, List.cons_prefix_cons]

/-- The value-checking loop on an answer file and a candidate of
integers: `AC` exactly when the answers are an initial segment of the
candidate's integers. -/
theorem run_valStep_ints (E : List Int) :
    ∀ (fuel : Nat) (fo fu : List Char) (C : List Int) (std_ans : Int) (junk : Junk),
      ints fo = some E → ints fu = some C → fo.length < fuel →
      run valStep fuel { f_out := some fo, f_user := some fu, std_ans := std_ans, junk := junk }
        = some (.exit (if E <+: C then AC else WA)) := by
  induction E with
  | nil =>
    intro fuel fo fu C std_ans junk ho _ hfuel
    obtain ⟨k, rfl⟩ : ∃ k, fuel = k + 1 := ⟨fuel - 1, by omega⟩
    have h := fscanf_d_eof std_ans (ints_nil ho)
    simp [run, valStep, h]
  | cons e E ih =>
    intro fuel fo fu C std_ans junk ho hu hfuel
    obtain ⟨k, rfl⟩ : ∃ k, fuel = k + 1 := ⟨fuel - 1, by omega⟩
    obtain ⟨r1, h1, ho1⟩ := ints_cons ho
    have hl1 := conv_d_value_lt h1
    have h := fscanf_d_value std_ans h1
    cases C with
    | nil =>
      have hq := fscanf_d_eof (junk 0) (ints_nil hu)
      simp [run, valStep, h, hq, EOF]
    | cons c C =>
      obtain ⟨ru, hc, hu1⟩ := ints_cons hu
      have hq := fscanf_d_value (junk 0) hc
      by_cases heq : c = e
      · have := ih k r1 ru C e junk.tail ho1 hu1 (by omega)
        simp [run, valStep, h, hq, EOF, heq, this, List.cons_prefix_cons]
      · have hne : ¬ (e = c) := fun e' => heq e'.symm
        simp [run, valStep, h, hq, EOF, heq, hne, List.cons_prefix_cons]

theorem ints_of_empty : ints [] = some [] := by decide

/-- The loop of `spj.cpp` under `METHOD == 1` on an input of pairs and a
candidate of integers: `AC` exactly when the candidate's integers agree
with the expected sums as far as both go. -/
theorem run_userStep1_ints (C : List Int) :
    ∀ (fuel : Nat) (fin fu : List Char) (P : List (Int × Int)) (ans : Int) (ja jb : Junk),
      ints fin = some (pairInts P) → ints fu = some C → fu.length < fuel →
      run userStep1 fuel { f_user := some fu, f_in := some fin, ans := ans, junkA := ja, junkB := jb }
        = some (.exit (if C.take P.length <+: pairSums P then AC else WA)) := by
  induction C with
  | nil =>
    intro fuel fin fu P ans ja jb _ hu hfuel
    obtain ⟨k, rfl⟩ : ∃ k, fuel = k + 1 := ⟨fuel - 1, by omega⟩
    have h := fscanf_d_eof ans (ints_nil hu)
    simp [run, userStep1, h]
  | cons c C ih =>
    intro fuel fin fu P ans ja jb hin hu hfuel
    obtain ⟨k, rfl⟩ : ∃ k, fuel = k + 1 := ⟨fuel - 1, by omega⟩
    obtain ⟨ru, hc, hu1⟩ := ints_cons hu
    have hl := conv_d_value_lt hc
    have hq := fscanf_d_value ans hc
    cases P with
    | nil =>
      have h := fscanf_dd_eof (ja 0) (jb 0) (ints_nil hin)
      have := ih k [] ru [] c ja.tail jb.tail ints_of_empty hu1 (by omega)
      simp [run, userStep1, h, hq, EOF, this, pairSums]
    | cons p P =>
      obtain ⟨r1, h1, hin1⟩ := ints_cons hin
      obtain ⟨r2, h2, hin2⟩ := ints_cons hin1
      have h := fscanf_dd_value (ja 0) (jb 0) h1 h2
      by_cases heq : c = addInt p.1 p.2
      · subst heq
        have := ih k r2 ru P (addInt p.1 p.2) ja.tail jb.tail hin2 hu1 (by omega)
        simp only [pairSums] at this
        simp [run, userStep1, h, hq, EOF, this, pairSums, List.cons_prefix_cons]
      · have hne : ¬ (addInt p.1 p.2 = c) := fun e => heq e.symm
        simp [run, userStep1, h, hq, EOF, heq, hne, pairSums, List.cons_prefix_cons]

theorem spj_main_eq_run (fuel : Nat) (args1 args2 args3 : Option (List Char)) (a b : Junk) :
    Example.Spj.main fuel args1 args2 args3 a b
      = run userStep1 fuel { f_user := args3, f_in := args1, ans := 0, junkA := a, junkB := b } :=
  rfl

/-! ## Stored values are 32-bit values -/

theorem toInt32_idem (z : Int) : toInt32 (toInt32 z) = toInt32 z := by
  unfold toInt32
  omega

/-- What a conversion stores is a 32-bit value. -/
theorem conv_d_value_int32 {s : List Char} {v : Int} {rest : List Char}
    (h : conv_d s = .value v rest) : toInt32 v = v := by
  unfold conv_d at h
  split at h
  · cases h
  · split at h
    · split at h
      · cases h
      · split at h
        · injection h with h1 _
          rw [← h1, toInt32_idem]
        · cases h
    · split at h
      · injection h with h1 _
        rw [← h1, toInt32_idem]
      · cases h

/-- The integers of a file are 32-bit values. -/
theorem ints_int32 (xs : List Int) : ∀ s : List Char, ints s = some xs →
    ∀ x ∈ xs, toInt32 x = x := by
  induction xs with
  | nil => intro s _ x hx; cases hx
  | cons y ys ih =>
    intro s hs x hx
    obtain ⟨rest, hc, hrest⟩ := ints_cons hs
    rcases List.mem_cons.mp hx with h | h
    · rw [h]; exact conv_d_value_int32 hc
    · exact ih rest hrest x h

/-- When a file holds the exact sums of the pairs, these are their `int`
sums: none of them overflows. -/
theorem pairSums_eq_of_ints {s : List Char} {P : List (Int × Int)}
    (h : ints s = some (P.map (fun p => p.1 + p.2))) :
    P.map (fun p => p.1 + p.2) = pairSums P := by
  unfold pairSums
  apply List.map_congr_left
  intro p hp
  have := ints_int32 _ s h (p.1 + p.2) (List.mem_map.mpr ⟨p, hp, rfl⟩)
  simp only [addInt, this]

/-! ## Initial segments -/

theorem not_prefix_of_getElem_ne {E C : List Int} {i : Nat} {c e : Int}
    (hc : C[i]? = some c) (he : E[i]? = some e) (hne : c ≠ e) : ¬ (E <+: C) := by
  rintro ⟨t, rfl⟩
  have hi : i < E.length := by
    by_contra hge
    rw [List.getElem?_eq_none (by omega)] at he
    cases he
  rw [List.getElem?_append_left hi, he] at hc
  injection hc with hc
  exact hne hc.symm

theorem not_prefix_of_length_lt {E C : List Int} (h : C.length < E.length) : ¬ (E <+: C) := by
  intro hp
  have := hp.length_le
  omega

theorem prefix_append_iff_of_length_le {E C : List Int} (T : List Int)
    (h : E.length ≤ C.length) : E <+: C ++ T ↔ E <+: C := by
  constructor
  · intro hp
    exact List.prefix_of_prefix_length_le hp (List.prefix_append C T) h
  · intro hp
    exact hp.trans (List.prefix_append C T)

theorem pairSums_length (P : List (Int × Int)) : (pairSums P).length = P.length := by
  simp [pairSums]

theorem prefix_iff_take_eq (E C : List Int) : E <+: C ↔ C.take E.length = E := by
  rw [List.prefix_iff_eq_take]
  exact eq_comm

theorem take_prefix_iff_of_length_le {E C : List Int} (h : E.length ≤ C.length) :
    C.take E.length <+: E ↔ E <+: C := by
  rw [prefix_iff_take_eq E C]
  constructor
  · intro hp
    exact hp.eq_of_length (by rw [List.length_take]; omega)
  · intro he
    rw [he]

/-! ## A token that no conversion consumes -/

theorem skipws_append_of_nil {s : List Char} (t : List Char) (h : skipws s = []) :
    skipws (s ++ t) = skipws t := by
  induction s with
  | nil => rfl
  | cons c cs ih =>
    unfold skipws at h
    split at h
    · rename_i hc
      rw [List.cons_append, skipws, if_pos hc]
      exact ih h
    · cases h

theorem skipws_append_of_cons {s : List Char} {c : Char} {cs : List Char} (t : List Char)
    (h : skipws s = c :: cs) : skipws (s ++ t) = c :: (cs ++ t) := by
  induction s with
  | nil => cases h
  | cons d ds ih =>
    unfold skipws at h
    split at h
    · rename_i hd
      rw [List.cons_append, skipws, if_pos hd]
      exact ih h
    · rename_i hd
      injection h with h1 h2
      subst h1; subst h2
      rw [List.cons_append, skipws, if_neg hd]

theorem digits_append (s : List Char) (c : Char) (t : List Char) (hc : isdigit c = false) :
    ∀ acc : Nat, digits acc (s ++ c :: t) = ((digits acc s).1, (digits acc s).2 ++ c :: t) := by
  induction s with
  | nil =>
    intro acc
    simp [digits, hc]
  | cons d ds ih =>
    intro acc
    by_cases hd : isdigit d = true
    · rw [List.cons_append, digits, if_pos hd, ih, digits, if_pos hd]
    · rw [List.cons_append, digits, if_neg hd, digits, if_neg hd]
      rfl

/-- A token on which the conversion fails without consuming anything
begins with a character that is no white space, no sign and no digit. -/
theorem head_of_unread {t : List Char} (h : conv_d t = .matchFailure t) :
    ∃ c t', t = c :: t' ∧ isspace c = false ∧ isdigit c = false ∧ ¬ (c = '-' ∨ c = '+') := by
  have hs := skipws_length_le t
  unfold conv_d at h
  split at h
  · cases h
  · rename_i c cs hsk
    rw [hsk] at hs
    split at h
    · split at h
      · injection h with h
        subst h
        cases hsk
      · rename_i d ds
        split at h
        · cases h
        · injection h with h
          subst h
          simp only [List.length_cons] at hs
          omega
    · rename_i hsign
      split at h
      · cases h
      · rename_i hd
        injection h with h
        subst h
        refine ⟨c, cs, rfl, ?_, by simpa using hd, hsign⟩
        by_contra hsp
        have hsp' : isspace c = true := by simpa using hsp
        rw [skipws, if_pos hsp'] at hsk
        have := skipws_length_le cs
        rw [hsk] at this
        simp only [List.length_cons] at this
        omega

/-- A conversion that meets a character that is no white space, no sign
and no digit fails there and consumes nothing. -/
theorem conv_d_unread (c : Char) (r : List Char) (hsp : isspace c = false)
    (hdg : isdigit c = false) (hminus : c ≠ '-') (hplus : c ≠ '+') :
    conv_d (c :: r) = .matchFailure (c :: r) := by
  have hsk : skipws (c :: r) = c :: r := by
    rw [skipws, hsp]
    rfl
  have hsign : ¬ (c = '-' ∨ c = '+') := fun h => h.elim hminus hplus
  unfold conv_d
  rw [hsk]
  simp only
  rw [if_neg hsign, hdg]
  rfl

/-- End of file before the token: the conversion fails at the token. -/
theorem conv_d_append_eof {s t : List Char} (hs : conv_d s = .inputFailure)
    (ht : conv_d t = .matchFailure t) : conv_d (s ++ t) = .matchFailure t := by
  have hsk : skipws s = [] := by
    unfold conv_d at hs
    split at hs
    · assumption
    · split at hs
      · split at hs
        · cases hs
        · split at hs <;> cases hs
      · split at hs <;> cases hs
  rw [← ht]
  unfold conv_d
  rw [skipws_append_of_nil t hsk]

/-- An integer before the token is converted as if the token were not
there. -/
theorem conv_d_append_value {s t rest : List Char} {v : Int} (hs : conv_d s = .value v rest)
    (ht : conv_d t = .matchFailure t) : conv_d (s ++ t) = .value v (rest ++ t) := by
  obtain ⟨c, t', rfl, _, hdig, _⟩ := head_of_unread ht
  unfold conv_d at hs
  split at hs
  · cases hs
  · rename_i d ds hsk
    unfold conv_d
    rw [skipws_append_of_cons (c :: t') hsk]
    simp only
    split at hs
    · rename_i hsign
      rw [if_pos hsign]
      split at hs
      · cases hs
      · rename_i e es
        split at hs
        · rename_i he
          injection hs with h1 h2
          simp only [List.cons_append]
          rw [if_pos he, ← List.cons_append, digits_append (e :: es) c t' hdig 0, h1, h2]
        · cases hs
    · rename_i hsign
      rw [if_neg hsign]
      split at hs
      · rename_i hd
        injection hs with h1 h2
        rw [if_pos hd, ← List.cons_append, digits_append (d :: ds) c t' hdig 0, h1, h2]
      · cases hs

/-- A `"%d%d"` call on integers followed by an unread token never returns
`EOF`, and what it leaves is again integers followed by the token. -/
theorem fscanf_dd_before_unread {pre t : List Char} {xs : List Int} (a b : Int)
    (hpre : ints pre = some xs) (ht : conv_d t = .matchFailure t) :
    ∃ pre' xs', (fscanf_dd (pre ++ t) a b).ret ≠ EOF ∧
      (fscanf_dd (pre ++ t) a b).file = pre' ++ t ∧ ints pre' = some xs' := by
  cases xs with
  | nil =>
    have h := conv_d_append_eof (ints_nil hpre) ht
    exact ⟨[], [], by simp [fscanf_dd, h, EOF], by simp [fscanf_dd, h], ints_of_empty⟩
  | cons x xs =>
    obtain ⟨r1, h1, hr1⟩ := ints_cons hpre
    have h1' := conv_d_append_value h1 ht
    cases xs with
    | nil =>
      have h2 := conv_d_append_eof (ints_nil hr1) ht
      exact ⟨[], [], by simp [fscanf_dd, h1', h2, EOF], by simp [fscanf_dd, h1', h2],
        ints_of_empty⟩
    | cons y ys =>
      obtain ⟨r2, h2, hr2⟩ := ints_cons hr1
      have h2' := conv_d_append_value h2 ht
      exact ⟨r2, ys, by simp [fscanf_dd, h1', h2', EOF], by simp [fscanf_dd, h1', h2'], hr2⟩

/-- A `"%d"` call on integers followed by an unread token never returns
`EOF`, and what it leaves is again integers followed by the token. -/
theorem fscanf_d_before_unread {pre t : List Char} {xs : List Int} (x : Int)
    (hpre : ints pre = some xs) (ht : conv_d t = .matchFailure t) :
    ∃ pre' xs', (fscanf_d (pre ++ t) x).ret ≠ EOF ∧
      (fscanf_d (pre ++ t) x).file = pre' ++ t ∧ ints pre' = some xs' := by
  cases xs with
  | nil =>
    have h := conv_d_append_eof (ints_nil hpre) ht
    exact ⟨[], [], by simp [fscanf_d, h, EOF], by simp [fscanf_d, h], ints_of_empty⟩
  | cons y ys =>
    obtain ⟨r1, h1, hr1⟩ := ints_cons hpre
    have h1' := conv_d_append_value h1 ht
    exact ⟨r1, ys, by simp [fscanf_d, h1', EOF], by simp [fscanf_d, h1'], hr1⟩

/-- The sum-checking loop never accepts a candidate of integers once its
input runs into an unread token. -/
theorem run_sumStep_ref_unread (C : List Int) :
    ∀ (fuel : Nat) (pre t cand : List Char) (xs : List Int) (a b : Int) (junk : Junk),
      ints pre = some xs → conv_d t = .matchFailure t → ints cand = some C →
      cand.length < fuel →
      run sumStep fuel { f_in := some (pre ++ t), f_user := some cand, a := a, b := b, junk := junk }
        = some (.exit WA) := by
  induction C with
  | nil =>
    intro fuel pre t cand xs a b junk hpre ht hcand hfuel
    obtain ⟨k, rfl⟩ : ∃ k, fuel = k + 1 := ⟨fuel - 1, by omega⟩
    obtain ⟨pre', xs', hret, _, _⟩ := fscanf_dd_before_unread a b hpre ht
    have hq := fscanf_d_eof (junk 0) (ints_nil hcand)
    simp [run, sumStep, hret, hq]
  | cons c C ih =>
    intro fuel pre t cand xs a b junk hpre ht hcand hfuel
    obtain ⟨k, rfl⟩ : ∃ k, fuel = k + 1 := ⟨fuel - 1, by omega⟩
    obtain ⟨pre', xs', hret, hfile, hpre'⟩ := fscanf_dd_before_unread a b hpre ht
    obtain ⟨ru, hc, hu1⟩ := ints_cons hcand
    have hl := conv_d_value_lt hc
    have hq := fscanf_d_value (junk 0) hc
    have := ih k pre' t ru xs' (fscanf_dd (pre ++ t) a b).x (fscanf_dd (pre ++ t) a b).y
      junk.tail hpre' ht hu1 (by omega)
    have hret' : ¬ (fscanf_dd (pre ++ t) a b).ret = -1 := hret
    by_cases heq : c = addInt (fscanf_dd (pre ++ t) a b).x (fscanf_dd (pre ++ t) a b).y
    · simp [run, sumStep, hret', hq, EOF, hfile, ← heq, this]
    · simp [run, sumStep, hret', hq, EOF, heq]

/-- The value-checking loop never accepts a candidate of integers once its
answer file runs into an unread token. -/
theorem run_valStep_ref_unread (C : List Int) :
    ∀ (fuel : Nat) (pre t cand : List Char) (xs : List Int) (std_ans : Int) (junk : Junk),
      ints pre = some xs → conv_d t = .matchFailure t → ints cand = some C →
      cand.length < fuel →
      run valStep fuel { f_out := some (pre ++ t), f_user := some cand, std_ans := std_ans, junk := junk }
        = some (.exit WA) := by
  induction C with
  | nil =>
    intro fuel pre t cand xs std_ans junk hpre ht hcand hfuel
    obtain ⟨k, rfl⟩ : ∃ k, fuel = k + 1 := ⟨fuel - 1, by omega⟩
    obtain ⟨pre', xs', hret, _, _⟩ := fscanf_d_before_unread std_ans hpre ht
    have hq := fscanf_d_eof (junk 0) (ints_nil hcand)
    simp [run, valStep, hret, hq]
  | cons c C ih =>
    intro fuel pre t cand xs std_ans junk hpre ht hcand hfuel
    obtain ⟨k, rfl⟩ : ∃ k, fuel = k + 1 := ⟨fuel - 1, by omega⟩
    obtain ⟨pre', xs', hret, hfile, hpre'⟩ := fscanf_d_before_unread std_ans hpre ht
    obtain ⟨ru, hc, hu1⟩ := ints_cons hcand
    have hl := conv_d_value_lt hc
    have hq := fscanf_d_value (junk 0) hc
    have := ih k pre' t ru xs' (fscanf_d (pre ++ t) std_ans).x junk.tail hpre' ht hu1 (by omega)
    have hret' : ¬ (fscanf_d (pre ++ t) std_ans).ret = -1 := hret
    by_cases heq : c = (fscanf_d (pre ++ t) std_ans).x
    · rw [← heq] at this
      simp [run, valStep, hret', hq, EOF, hfile, ← heq, this]
    · simp [run, valStep, hret', hq, EOF, heq]

/-- The sum-checking loop when the candidate runs into an unread token
while a sum is pending: `WA` as soon as the value the unassigned variable
holds on that trip differs from the sum. -/
theorem run_sumStep_cand_unread (P : List (Int × Int)) :
    ∀ (fuel : Nat) (ref pre t : List Char) (C : List Int) (e a b : Int) (junk : Junk),
      ints ref = some (pairInts P) → ints pre = some C → conv_d t = .matchFailure t →
      (pairSums P)[C.length]? = some e → junk C.length ≠ e → ref.length < fuel →
      run sumStep fuel { f_in := some ref, f_user := some (pre ++ t), a := a, b := b, junk := junk }
        = some (.exit WA) := by
  induction P with
  | nil =>
    intro fuel ref pre t C e a b junk _ _ _ he
    simp [pairSums] at he
  | cons p P ih =>
    intro fuel ref pre t C e a b junk href hpre ht he hj hfuel
    obtain ⟨k, rfl⟩ : ∃ k, fuel = k + 1 := ⟨fuel - 1, by omega⟩
    obtain ⟨r1, h1, hin1⟩ := ints_cons href
    obtain ⟨r2, h2, hin2⟩ := ints_cons hin1
    have hl1 := conv_d_value_lt h1
    have hl2 := conv_d_value_lt h2
    have h := fscanf_dd_value a b h1 h2
    cases C with
    | nil =>
      have hq : fscanf_d (pre ++ t) (junk 0) = ⟨0, junk 0, t⟩ := by
        simp [fscanf_d, conv_d_append_eof (ints_nil hpre) ht]
      have he' : addInt p.1 p.2 = e := by simpa [pairSums] using he
      have hj' : ¬ (junk 0 = addInt p.1 p.2) := by
        rw [he']; simpa using hj
      simp [run, sumStep, h, hq, EOF, hj']
    | cons c C =>
      obtain ⟨ru, hc, hu1⟩ := ints_cons hpre
      have hq := fscanf_d_value (junk 0) (conv_d_append_value hc ht)
      have he' : (pairSums P)[C.length]? = some e := by simpa [pairSums] using he
      have := ih k r2 ru t C e p.1 p.2 junk.tail hin2 hu1 ht he'
        (by simpa [Junk.tail] using hj) (by omega)
      by_cases heq : c = addInt p.1 p.2
      · simp [run, sumStep, h, hq, EOF, heq, this]
      · simp [run, sumStep, h, hq, EOF, heq]

/-- The value-checking loop when the candidate runs into an unread token
while an answer is pending: `WA` as soon as the value the unassigned
variable holds on that trip differs from the answer. -/
theorem run_valStep_cand_unread (E : List Int) :
    ∀ (fuel : Nat) (ref pre t : List Char) (C : List Int) (e std_ans : Int) (junk : Junk),
      ints ref = some E → ints pre = some C → conv_d t = .matchFailure t →
      E[C.length]? = some e → junk C.length ≠ e → ref.length < fuel →
      run valStep fuel { f_out := some ref, f_user := some (pre ++ t), std_ans := std_ans, junk := junk }
        = some (.exit WA) := by
  induction E with
  | nil =>
    intro fuel ref pre t C e std_ans junk _ _ _ he
    simp at he
  | cons x E ih =>
    intro fuel ref pre t C e std_ans junk href hpre ht he hj hfuel
    obtain ⟨k, rfl⟩ : ∃ k, fuel = k + 1 := ⟨fuel - 1, by omega⟩
    obtain ⟨r1, h1, hin1⟩ := ints_cons href
    have hl1 := conv_d_value_lt h1
    have h := fscanf_d_value std_ans h1
    cases C with
    | nil =>
      have hq : fscanf_d (pre ++ t) (junk 0) = ⟨0, junk 0, t⟩ := by
        simp [fscanf_d, conv_d_append_eof (ints_nil hpre) ht]
      have he' : x = e := by simpa using he
      have hj' : ¬ (junk 0 = x) := by
        rw [he']; simpa using hj
      simp [run, valStep, h, hq, EOF, hj']
    | cons c C =>
      obtain ⟨ru, hc, hu1⟩ := ints_cons hpre
      have hq := fscanf_d_value (junk 0) (conv_d_append_value hc ht)
      have he' : E[C.length]? = some e := by simpa using he
      have := ih k r1 ru t C e x junk.tail hin1 hu1 ht he'
        (by simpa [Junk.tail] using hj) (by omega)
      by_cases heq : c = x
      · simp [run, valStep, h, hq, EOF, heq, this]
      · simp [run, valStep, h, hq, EOF, heq]

/-! ## Every file of integers -/

/-- A `"%d%d"` call on a file of integers: `EOF` when there are none,
otherwise a shorter file of integers is left. -/
theorem fscanf_dd_ints {f : List Char} {R : List Int} (a b : Int) (h : ints f = some R) :
    (fscanf_dd f a b).ret = EOF ∨
      ((fscanf_dd f a b).ret ≠ EOF ∧ (fscanf_dd f a b).file.length < f.length ∧
        ∃ R', ints (fscanf_dd f a b).file = some R') := by
  cases R with
  | nil => exact Or.inl (by rw [fscanf_dd_eof a b (ints_nil h)])
  | cons x R =>
    obtain ⟨r1, h1, hr1⟩ := ints_cons h
    have hl1 := conv_d_value_lt h1
    cases R with
    | nil =>
      have h2 := ints_nil hr1
      refine Or.inr ⟨by simp [fscanf_dd, h1, h2, EOF], ?_, [], ?_⟩
      · simp only [fscanf_dd, h1, h2, List.length_nil]; omega
      · simp only [fscanf_dd, h1, h2]; exact ints_of_empty
    | cons y R =>
      obtain ⟨r2, h2, hr2⟩ := ints_cons hr1
      have hl2 := conv_d_value_lt h2
      refine Or.inr ⟨by simp [fscanf_dd, h1, h2, EOF], ?_, R, ?_⟩
      · simp only [fscanf_dd, h1, h2]; omega
      · simp only [fscanf_dd, h1, h2]; exact hr2

/-- A `"%d"` call on a file of integers: `EOF` when there are none,
otherwise a shorter file of integers is left. -/
theorem fscanf_d_ints {f : List Char} {R : List Int} (x : Int) (h : ints f = some R) :
    (fscanf_d f x).ret = EOF ∨
      ((fscanf_d f x).ret ≠ EOF ∧ (fscanf_d f x).file.length < f.length ∧
        ∃ R', ints (fscanf_d f x).file = some R') := by
  cases R with
  | nil => exact Or.inl (by rw [fscanf_d_eof x (ints_nil h)])
  | cons y R =>
    obtain ⟨r1, h1, hr1⟩ := ints_cons h
    have hl1 := conv_d_value_lt h1
    refine Or.inr ⟨by simp [fscanf_d, h1, EOF], ?_, R, ?_⟩
    · simp only [fscanf_d, h1]; omega
    · simp only [fscanf_d, h1]; exact hr1

/-- The sum-checking loop on any two files of integers returns `AC` or
`WA`. -/
theorem run_sumStep_exit (fuel : Nat) :
    ∀ (fin fu : List Char) (R C : List Int) (a b : Int) (junk : Junk),
      ints fin = some R → ints fu = some C → fin.length < fuel →
      run sumStep fuel { f_in := some fin, f_user := some fu, a := a, b := b, junk := junk }
          = some (.exit AC) ∨
        run sumStep fuel { f_in := some fin, f_user := some fu, a := a, b := b, junk := junk }
          = some (.exit WA) := by
  induction fuel with
  | zero => intro fin fu R C a b junk _ _ h; omega
  | succ k ih =>
    intro fin fu R C a b junk hin hu hfuel
    rcases fscanf_dd_ints a b hin with he | ⟨hne, hlen, R', hR'⟩
    · left
      simp [run, sumStep, he]
    · rcases fscanf_d_ints (junk 0) hu with hue | ⟨hune, _, C', hC'⟩
      · right
        simp [run, sumStep, hne, hue]
      · by_cases hcmp : (fscanf_d fu (junk 0)).x
            = addInt (fscanf_dd fin a b).x (fscanf_dd fin a b).y
        · have := ih (fscanf_dd fin a b).file (fscanf_d fu (junk 0)).file R' C'
            (fscanf_dd fin a b).x (fscanf_dd fin a b).y junk.tail hR' hC' (by omega)
          simpa [run, sumStep, hne, hune, hcmp] using this
        · right
          simp [run, sumStep, hne, hune, hcmp]

/-- The loop of `spj.cpp` under `METHOD == 1` on any two files of integers
returns `AC` or `WA`. -/
theorem run_userStep1_exit (fuel : Nat) :
    ∀ (fin fu : List Char) (R C : List Int) (ans : Int) (ja jb : Junk),
      ints fin = some R → ints fu = some C → fu.length < fuel →
      run userStep1 fuel
          { f_user := some fu, f_in := some fin, ans := ans, junkA := ja, junkB := jb }
          = some (.exit AC) ∨
        run userStep1 fuel
          { f_user := some fu, f_in := some fin, ans := ans, junkA := ja, junkB := jb }
          = some (.exit WA) := by
  induction fuel with
  | zero => intro fin fu R C ans ja jb _ _ h; omega
  | succ k ih =>
    intro fin fu R C ans ja jb hin hu hfuel
    rcases fscanf_d_ints ans hu with hue | ⟨hune, hlen, C', hC'⟩
    · left
      simp [run, userStep1, hue]
    · have hfile : ∃ R', ints (fscanf_dd fin (ja 0) (jb 0)).file = some R' := by
        rcases fscanf_dd_ints (ja 0) (jb 0) hin with he | ⟨_, _, R', hR'⟩
        · have hR : R = [] := by
            cases R with
            | nil => rfl
            | cons x R =>
              obtain ⟨r1, h1, hr1⟩ := ints_cons hin
              cases R with
              | nil => simp [fscanf_dd, h1, ints_nil hr1, EOF] at he
              | cons y R =>
                obtain ⟨r2, h2, _⟩ := ints_cons hr1
                simp [fscanf_dd, h1, h2, EOF] at he
          subst hR
          rw [fscanf_dd_eof _ _ (ints_nil hin)]
          exact ⟨[], ints_of_empty⟩
        · exact ⟨R', hR'⟩
      obtain ⟨R', hR'⟩ := hfile
      by_cases hcmp : (fscanf_dd fin (ja 0) (jb 0)).ret ≠ EOF ∧
          addInt (fscanf_dd fin (ja 0) (jb 0)).x (fscanf_dd fin (ja 0) (jb 0)).y
            ≠ (fscanf_d fu ans).x
      · right
        simp only [run, userStep1]
        rw [if_pos hune, if_pos hcmp]
      · have := ih (fscanf_dd fin (ja 0) (jb 0)).file (fscanf_d fu ans).file R' C'
          (fscanf_d fu ans).x ja.tail jb.tail hR' hC' (by omega)
        simp only [run, userStep1]
        rw [if_pos hune, if_neg hcmp]
        exact this

theorem fscanf_dd_ret_of_cons {f : List Char} {v : Int} {vs : List Int} (a b : Int)
    (h : ints f = some (v :: vs)) : (fscanf_dd f a b).ret ≠ EOF := by
  obtain ⟨r1, h1, hr1⟩ := ints_cons h
  cases vs with
  | nil => simp [fscanf_dd, h1, ints_nil hr1, EOF]
  | cons w ws =>
    obtain ⟨r2, h2, _⟩ := ints_cons hr1
    simp [fscanf_dd, h1, h2, EOF]

theorem fscanf_d_ret_of_cons {f : List Char} {v : Int} {vs : List Int} (x : Int)
    (h : ints f = some (v :: vs)) : (fscanf_d f x).ret ≠ EOF := by
  obtain ⟨r1, h1, _⟩ := ints_cons h
  simp [fscanf_d, h1, EOF]

/-! ## Runs and loop-iteration boundaries -/

/-- A run that ends has made some complete trips and then stopped. -/
theorem run_eq_some {σ : Type} (step : σ → Ctl σ) (fuel : Nat) :
    ∀ (s : σ) (o : Outcome), run step fuel s = some o →
      ∃ k s', k < fuel ∧ stateAfter step k s = some s' ∧ step s' = .stop o := by
  induction fuel with
  | zero => intro s o h; cases h
  | succ n ih =>
    intro s o h
    unfold run at h
    cases hs : step s with
    | next s1 =>
      rw [hs] at h
      obtain ⟨k, s', hk, hst, hstop⟩ := ih s1 o h
      refine ⟨k + 1, s', by omega, ?_, hstop⟩
      simp only [stateAfter, hs, hst]
    | stop o' =>
      rw [hs] at h
      injection h with h
      subst h
      exact ⟨0, s, by omega, rfl, hs⟩

/-- Complete trips followed by a stop make a run that ends there. -/
theorem run_of_stateAfter {σ : Type} (step : σ → Ctl σ) (k : Nat) :
    ∀ (s s' : σ) (o : Outcome) (fuel : Nat), stateAfter step k s = some s' →
      step s' = .stop o → k < fuel → run step fuel s = some o := by
  induction k with
  | zero =>
    intro s s' o fuel h hstop hfuel
    obtain ⟨n, rfl⟩ : ∃ n, fuel = n + 1 := ⟨fuel - 1, by omega⟩
    injection h with h
    subst h
    simp only [run, hstop]
  | succ k ih =>
    intro s s' o fuel h hstop hfuel
    obtain ⟨n, rfl⟩ : ∃ n, fuel = n + 1 := ⟨fuel - 1, by omega⟩
    unfold stateAfter at h
    cases hs : step s with
    | next s1 =>
      rw [hs] at h
      simp only [run, hs]
      exact ih s1 s' o n h hstop (by omega)
    | stop o' =>
      rw [hs] at h
      cases h

/-- The boundary after one more trip. -/
theorem stateAfter_succ {σ : Type} (step : σ → Ctl σ) (k : Nat) :
    ∀ (s s' : σ), stateAfter step (k + 1) s = some s' ↔
      ∃ m, stateAfter step k s = some m ∧ step m = .next s' := by
  induction k with
  | zero =>
    intro s s'
    constructor
    · intro h
      refine ⟨s, rfl, ?_⟩
      simp only [stateAfter] at h
      cases hs : step s with
      | next s1 =>
        rw [hs] at h
        injection h with h
        rw [h]
      | stop o => rw [hs] at h; cases h
    · rintro ⟨m, hm, hstep⟩
      injection hm with hm
      subst hm
      simp only [stateAfter, hstep]
  | succ k ih =>
    intro s s'
    constructor
    · intro h
      rw [stateAfter] at h
      cases hs : step s with
      | next s1 =>
        rw [hs] at h
        obtain ⟨m, hm, hstep⟩ := (ih s1 s').mp h
        refine ⟨m, ?_, hstep⟩
        rw [stateAfter, hs]
        exact hm
      | stop o => rw [hs] at h; cases h
    · rintro ⟨m, hm, hstep⟩
      rw [stateAfter] at hm
      cases hs : step s with
      | next s1 =>
        rw [hs] at hm
        rw [stateAfter, hs]
        exact (ih s1 s').mpr ⟨m, hm, hstep⟩
      | stop o => rw [hs] at hm; cases hm


theorem stop_WA_ne_stop_AC {σ : Type} :
    (Ctl.stop (.exit WA) : Ctl σ) ≠ Ctl.stop (.exit AC) := by
  intro h
  injection h with h
  exact absurd h (by decide)

/-- A loop that has no `k`-th boundary has ended within `k` trips. -/
theorem run_of_stateAfter_none {σ : Type} (step : σ → Ctl σ) (k : Nat) :
    ∀ s : σ, stateAfter step k s = none → ∃ o, run step k s = some o := by
  induction k with
  | zero => intro s h; cases h
  | succ k ih =>
    intro s h
    rw [stateAfter] at h
    cases hs : step s with
    | next s1 =>
      rw [hs] at h
      obtain ⟨o, ho⟩ := ih s1 h
      exact ⟨o, by simp only [run, hs, ho]⟩
    | stop o => exact ⟨o, by simp only [run, hs]⟩

/-- More fuel does not change the outcome of a run that ends. -/
theorem run_mono {σ : Type} (step : σ → Ctl σ) {n m : Nat} {s : σ} {o : Outcome}
    (h : run step n s = some o) (hnm : n ≤ m) : run step m s = some o := by
  obtain ⟨k, s', hk, hst, hstop⟩ := run_eq_some step n s o h
  exact run_of_stateAfter step k s s' o m hst hstop (by omega)

/-- What a `"%d"` call leaves of a file of integers: all but the first. -/
theorem ints_fscanf_d_file {f : List Char} {C : List Int} (x : Int) (h : ints f = some C) :
    ints (fscanf_d f x).file = some (C.drop 1) := by
  cases C with
  | nil =>
    rw [fscanf_d_eof x (ints_nil h)]
    exact ints_of_empty
  | cons c C =>
    obtain ⟨ru, hc, hu⟩ := ints_cons h
    rw [fscanf_d_value x hc]
    exact hu

/-- One trip of the sum-checking loop on an input of pairs and a candidate
of integers. -/
theorem sumStep_pairs {fin fu : List Char} {P : List (Int × Int)} {C : List Int}
    (a b : Int) (junk : Junk) (hin : ints fin = some (pairInts P)) (hu : ints fu = some C) :
    (P = [] ∧ sumStep { f_in := some fin, f_user := some fu, a := a, b := b, junk := junk }
        = .stop (.exit AC)) ∨
    (∃ p P', P = p :: P' ∧
      ((sumStep { f_in := some fin, f_user := some fu, a := a, b := b, junk := junk }
          = .stop (.exit WA) ∧ ¬ ([addInt p.1 p.2] <+: C)) ∨
       (∃ C' fin' fu', C = addInt p.1 p.2 :: C' ∧
          sumStep { f_in := some fin, f_user := some fu, a := a, b := b, junk := junk }
            = .next { f_in := some fin', f_user := some fu', a := p.1, b := p.2,
                      junk := junk.tail } ∧
          ints fin' = some (pairInts P') ∧ ints fu' = some C' ∧
          fin'.length < fin.length ∧ fu'.length < fu.length))) := by
  cases P with
  | nil =>
    left
    have h := fscanf_dd_eof a b (ints_nil hin)
    exact ⟨rfl, by simp [sumStep, h]⟩
  | cons p P =>
    right
    refine ⟨p, P, rfl, ?_⟩
    obtain ⟨r1, h1, hin1⟩ := ints_cons hin
    obtain ⟨r2, h2, hin2⟩ := ints_cons hin1
    have hl1 := conv_d_value_lt h1
    have hl2 := conv_d_value_lt h2
    have h := fscanf_dd_value a b h1 h2
    cases C with
    | nil =>
      left
      have hq := fscanf_d_eof (junk 0) (ints_nil hu)
      exact ⟨by simp [sumStep, h, hq, EOF], by simp⟩
    | cons c C =>
      obtain ⟨ru, hc, hu1⟩ := ints_cons hu
      have hlu := conv_d_value_lt hc
      have hq := fscanf_d_value (junk 0) hc
      by_cases heq : c = addInt p.1 p.2
      · right
        subst heq
        refine ⟨C, r2, ru, rfl, by simp [sumStep, h, hq, EOF], hin2, hu1, by omega, hlu⟩
      · left
        have hne : ¬ (addInt p.1 p.2 = c) := fun e => heq e.symm
        exact ⟨by simp [sumStep, h, hq, EOF, heq], by simp [List.cons_prefix_cons, hne]⟩

/-- The sum-checking loop at its `k`-th boundary has taken `k` pairs from
the input and `k` integers from the candidate. -/
theorem stateAfter_sumStep (k : Nat) :
    ∀ (fin fu : List Char) (P : List (Int × Int)) (C : List Int) (a b : Int) (junk : Junk)
      (s : SumState), ints fin = some (pairInts P) → ints fu = some C →
      stateAfter sumStep k { f_in := some fin, f_user := some fu, a := a, b := b, junk := junk }
        = some s →
      k ≤ P.length ∧ k ≤ C.length ∧ C.take k = (pairSums P).take k ∧
      ∃ fin' fu' a' b' junk', s = { f_in := some fin', f_user := some fu', a := a', b := b',
                                      junk := junk' } ∧
        ints fin' = some (pairInts (P.drop k)) ∧ ints fu' = some (C.drop k) := by
  induction k with
  | zero =>
    intro fin fu P C a b junk s hin hu h
    injection h with h
    subst h
    exact ⟨Nat.zero_le _, Nat.zero_le _, by simp, fin, fu, a, b, junk, rfl, hin, hu⟩
  | succ k ih =>
    intro fin fu P C a b junk s hin hu h
    rw [stateAfter] at h
    rcases sumStep_pairs a b junk hin hu with ⟨_, hstop⟩ | ⟨p, P', rfl, hcase⟩
    · rw [hstop] at h; cases h
    · rcases hcase with ⟨hstop, _⟩ | ⟨C', fin', fu', rfl, hnext, hin', hu', _, _⟩
      · rw [hstop] at h; cases h
      · rw [hnext] at h
        obtain ⟨h1, h2, h3, hrest⟩ := ih fin' fu' P' C' p.1 p.2 junk.tail s hin' hu' h
        refine ⟨by simp only [List.length_cons]; omega,
          by simp only [List.length_cons]; omega, ?_, ?_⟩
        · simp only [pairSums, List.map_cons, List.take_succ_cons] at h3 ⊢
          rw [h3]
        · simpa using hrest

/-- One trip of the value-checking loop on an answer file and a candidate
of integers. -/
theorem valStep_vals {fo fu : List Char} {E C : List Int}
    (std_ans : Int) (junk : Junk) (ho : ints fo = some E) (hu : ints fu = some C) :
    (E = [] ∧ valStep { f_out := some fo, f_user := some fu, std_ans := std_ans, junk := junk }
        = .stop (.exit AC)) ∨
    (∃ e E', E = e :: E' ∧
      ((valStep { f_out := some fo, f_user := some fu, std_ans := std_ans, junk := junk }
          = .stop (.exit WA) ∧ ¬ ([e] <+: C)) ∨
       (∃ C' fo' fu', C = e :: C' ∧
          valStep { f_out := some fo, f_user := some fu, std_ans := std_ans, junk := junk }
            = .next { f_out := some fo', f_user := some fu', std_ans := e,
                      junk := junk.tail } ∧
          ints fo' = some E' ∧ ints fu' = some C' ∧
          fo'.length < fo.length ∧ fu'.length < fu.length))) := by
  cases E with
  | nil =>
    left
    have h := fscanf_d_eof std_ans (ints_nil ho)
    exact ⟨rfl, by simp [valStep, h]⟩
  | cons e E =>
    right
    refine ⟨e, E, rfl, ?_⟩
    obtain ⟨r1, h1, ho1⟩ := ints_cons ho
    have hl1 := conv_d_value_lt h1
    have h := fscanf_d_value std_ans h1
    cases C with
    | nil =>
      left
      have hq := fscanf_d_eof (junk 0) (ints_nil hu)
      exact ⟨by simp [valStep, h, hq, EOF], by simp⟩
    | cons c C =>
      obtain ⟨ru, hc, hu1⟩ := ints_cons hu
      have hlu := conv_d_value_lt hc
      have hq := fscanf_d_value (junk 0) hc
      by_cases heq : c = e
      · right
        subst heq
        exact ⟨C, r1, ru, rfl, by simp [valStep, h, hq, EOF], ho1, hu1, hl1, hlu⟩
      · left
        have hne : ¬ (e = c) := fun e' => heq e'.symm
        exact ⟨by simp [valStep, h, hq, EOF, heq], by simp [List.cons_prefix_cons, hne]⟩

/-- The value-checking loop at its `k`-th boundary has taken `k` answers
and `k` integers from the candidate. -/
theorem stateAfter_valStep (k : Nat) :
    ∀ (fo fu : List Char) (E C : List Int) (std_ans : Int) (junk : Junk) (s : ValState),
      ints fo = some E → ints fu = some C →
      stateAfter valStep k
        { f_out := some fo, f_user := some fu, std_ans := std_ans, junk := junk } = some s →
      k ≤ E.length ∧ k ≤ C.length ∧ C.take k = E.take k ∧
      ∃ fo' fu' std' junk', s = { f_out := some fo', f_user := some fu', std_ans := std',
                                   junk := junk' } ∧
        ints fo' = some (E.drop k) ∧ ints fu' = some (C.drop k) := by
  induction k with
  | zero =>
    intro fo fu E C std_ans junk s ho hu h
    injection h with h
    subst h
    exact ⟨Nat.zero_le _, Nat.zero_le _, by simp, fo, fu, std_ans, junk, rfl, ho, hu⟩
  | succ k ih =>
    intro fo fu E C std_ans junk s ho hu h
    rw [stateAfter] at h
    rcases valStep_vals std_ans junk ho hu with ⟨_, hstop⟩ | ⟨e, E', rfl, hcase⟩
    · rw [hstop] at h; cases h
    · rcases hcase with ⟨hstop, _⟩ | ⟨C', fo', fu', rfl, hnext, ho', hu', _, _⟩
      · rw [hstop] at h; cases h
      · rw [hnext] at h
        obtain ⟨h1, h2, h3, hrest⟩ := ih fo' fu' E' C' e junk.tail s ho' hu' h
        refine ⟨by simp only [List.length_cons]; omega,
          by simp only [List.length_cons]; omega, ?_, ?_⟩
        · simp only [List.take_succ_cons]
          rw [h3]
        · simpa using hrest

/-- One trip of the loop of `spj.cpp` under `METHOD == 1` on an input of
pairs and a candidate of integers. -/
theorem userStep1_pairs {fin fu : List Char} {P : List (Int × Int)} {C : List Int}
    (ans : Int) (ja jb : Junk) (hin : ints fin = some (pairInts P)) (hu : ints fu = some C) :
    (C = [] ∧ userStep1 { f_user := some fu, f_in := some fin, ans := ans, junkA := ja,
                          junkB := jb } = .stop (.exit AC)) ∨
    (∃ c C', C = c :: C' ∧
      ((userStep1 { f_user := some fu, f_in := some fin, ans := ans, junkA := ja, junkB := jb }
          = .stop (.exit WA) ∧ ∃ p P', P = p :: P' ∧ c ≠ addInt p.1 p.2) ∨
       (∃ fin' fu',
          userStep1 { f_user := some fu, f_in := some fin, ans := ans, junkA := ja,
                      junkB := jb }
            = .next { f_user := some fu', f_in := some fin', ans := c, junkA := ja.tail,
                      junkB := jb.tail } ∧
          ints fin' = some (pairInts (P.drop 1)) ∧ ints fu' = some C' ∧
          fu'.length < fu.length ∧ (∀ p P', P = p :: P' → c = addInt p.1 p.2)))) := by
  cases C with
  | nil =>
    left
    have h := fscanf_d_eof ans (ints_nil hu)
    exact ⟨rfl, by simp [userStep1, h]⟩
  | cons c C =>
    right
    refine ⟨c, C, rfl, ?_⟩
    obtain ⟨ru, hc, hu1⟩ := ints_cons hu
    have hlu := conv_d_value_lt hc
    have hq := fscanf_d_value ans hc
    cases P with
    | nil =>
      right
      have h := fscanf_dd_eof (ja 0) (jb 0) (ints_nil hin)
      refine ⟨[], ru, by simp [userStep1, h, hq, EOF], ints_of_empty, hu1, hlu, ?_⟩
      intro p P' hP
      cases hP
    | cons p P =>
      obtain ⟨r1, h1, hin1⟩ := ints_cons hin
      obtain ⟨r2, h2, hin2⟩ := ints_cons hin1
      have h := fscanf_dd_value (ja 0) (jb 0) h1 h2
      by_cases heq : c = addInt p.1 p.2
      · right
        subst heq
        refine ⟨r2, ru, by simp [userStep1, h, hq, EOF], by simpa using hin2, hu1, hlu, ?_⟩
        intro q Q hQ
        injection hQ with hq1 _
        rw [hq1]
      · left
        have hne : ¬ (addInt p.1 p.2 = c) := fun e => heq e.symm
        exact ⟨by simp [userStep1, h, hq, EOF, hne], p, P, rfl, heq⟩

/-- The loop of `spj.cpp` at its `k`-th boundary has taken `k` integers
from the candidate and (as far as there are any) `k` pairs from the
input. -/
theorem stateAfter_userStep1 (k : Nat) :
    ∀ (fin fu : List Char) (P : List (Int × Int)) (C : List Int) (ans : Int) (ja jb : Junk)
      (s : UserState), ints fin = some (pairInts P) → ints fu = some C →
      stateAfter userStep1 k
        { f_user := some fu, f_in := some fin, ans := ans, junkA := ja, junkB := jb }
        = some s →
      k ≤ C.length ∧
      ∃ fin' fu' ans' ja' jb', s = { f_user := some fu', f_in := some fin', ans := ans',
                                      junkA := ja', junkB := jb' } ∧
        ints fin' = some (pairInts (P.drop k)) ∧ ints fu' = some (C.drop k) := by
  induction k with
  | zero =>
    intro fin fu P C ans ja jb s hin hu h
    injection h with h
    subst h
    exact ⟨Nat.zero_le _, fin, fu, ans, ja, jb, rfl, hin, hu⟩
  | succ k ih =>
    intro fin fu P C ans ja jb s hin hu h
    rw [stateAfter] at h
    rcases userStep1_pairs ans ja jb hin hu with ⟨_, hstop⟩ | ⟨c, C', rfl, hcase⟩
    · rw [hstop] at h; cases h
    · rcases hcase with ⟨hstop, _⟩ | ⟨fin', fu', hnext, hin', hu', _, _⟩
      · rw [hstop] at h; cases h
      · rw [hnext] at h
        obtain ⟨h1, hrest⟩ := ih fin' fu' (P.drop 1) C' c ja.tail jb.tail s hin' hu' h
        refine ⟨by simp only [List.length_cons]; omega, ?_⟩
        simpa [Nat.add_comm] using hrest

/-- Two lists agree as far as both go exactly when no index holds two
different values. -/
theorem take_prefix_iff_getElem (C : List Int) : ∀ E : List Int,
    C.take E.length <+: E ↔ ∀ (i : Nat) (c e : Int), C[i]? = some c → E[i]? = some e → c = e := by
  induction C with
  | nil =>
    intro E
    simp
  | cons c C ih =>
    intro E
    cases E with
    | nil => simp
    | cons e E =>
      simp only [List.length_cons, List.take_succ_cons, List.cons_prefix_cons, ih E]
      constructor
      · rintro ⟨rfl, h⟩ i c' e' hc he
        cases i with
        | zero =>
          simp only [List.getElem?_cons_zero, Option.some.injEq] at hc he
          rw [← hc, ← he]
        | succ i =>
          simp only [List.getElem?_cons_succ] at hc he
          exact h i c' e' hc he
      · intro h
        refine ⟨h 0 c e (by simp) (by simp), ?_⟩
        intro i c' e' hc he
        exact h (i + 1) c' e' (by simpa using hc) (by simpa using he)

/-! ## An input with an unpaired last integer -/

/-- The `"%d%d"` call on a file that holds a single integer: one
conversion succeeds, the call returns 1 and the second variable keeps its
contents. -/
theorem fscanf_dd_single {f : List Char} {x : Int} (a b : Int) (h : ints f = some [x]) :
    fscanf_dd f a b = ⟨1, x, b, []⟩ := by
  obtain ⟨r1, h1, hr1⟩ := ints_cons h
  simp [fscanf_dd, h1, ints_nil hr1]

/-- The sum-checking loop on an input of pairs followed by one more
integer `x`: the last expected value is the `int` sum of `x` and the
contents of `b`, that is the second component of the last pair (the
initial contents of `b` when there is no pair). -/
theorem run_sumStep_odd (P : List (Int × Int)) :
    ∀ (fuel : Nat) (fin fu : List Char) (C : List Int) (a b x : Int) (junk : Junk),
      ints fin = some (pairInts P ++ [x]) → ints fu = some C → fin.length < fuel →
      run sumStep fuel { f_in := some fin, f_user := some fu, a := a, b := b, junk := junk }
        = some (.exit (if pairSums P ++ [addInt x ((P.map Prod.snd).getLastD b)] <+: C
            then AC else WA)) := by
  induction P with
  | nil =>
    intro fuel fin fu C a b x junk hin hu hfuel
    obtain ⟨k, rfl⟩ : ∃ k, fuel = k + 1 := ⟨fuel - 1, by omega⟩
    have hin' : ints fin = some [x] := hin
    have h := fscanf_dd_single a b hin'
    obtain ⟨r1, h1, _⟩ := ints_cons hin'
    have hl1 := conv_d_value_lt h1
    cases C with
    | nil =>
      have hq := fscanf_d_eof (junk 0) (ints_nil hu)
      simp [run, sumStep, h, hq, EOF, pairSums]
    | cons c C =>
      obtain ⟨ru, hc, hu1⟩ := ints_cons hu
      have hq := fscanf_d_value (junk 0) hc
      by_cases heq : c = addInt x b
      · subst heq
        have := run_sumStep_ints [] k [] ru C x b junk.tail ints_of_empty hu1
          (by simp only [List.length_nil]; omega)
        simp only [pairSums, List.map_nil, List.nil_prefix, if_true] at this
        simp [run, sumStep, h, hq, EOF, this, pairSums, List.cons_prefix_cons,
          List.getLastD_nil]
      · have hne : ¬ (addInt x b = c) := fun e => heq e.symm
        simp [run, sumStep, h, hq, EOF, heq, hne, pairSums, List.cons_prefix_cons,
          List.getLastD_nil]
  | cons p P ih =>
    intro fuel fin fu C a b x junk hin hu hfuel
    obtain ⟨k, rfl⟩ : ∃ k, fuel = k + 1 := ⟨fuel - 1, by omega⟩
    have hin' : ints fin = some (p.1 :: p.2 :: (pairInts P ++ [x])) := hin
    obtain ⟨r1, h1, hin1⟩ := ints_cons hin'
    obtain ⟨r2, h2, hin2⟩ := ints_cons hin1
    have hl1 := conv_d_value_lt h1
    have hl2 := conv_d_value_lt h2
    have h := fscanf_dd_value a b h1 h2
    have hlast : ((p :: P).map Prod.snd).getLastD b = (P.map Prod.snd).getLastD p.2 := by
      rw [List.map_cons, List.getLastD_cons]
    rw [hlast]
    cases C with
    | nil =>
      have hq := fscanf_d_eof (junk 0) (ints_nil hu)
      simp [run, sumStep, h, hq, EOF, pairSums]
    | cons c C =>
      obtain ⟨ru, hc, hu1⟩ := ints_cons hu
      have hq := fscanf_d_value (junk 0) hc
      by_cases heq : c = addInt p.1 p.2
      · subst heq
        have := ih k r2 ru C p.1 p.2 x junk.tail hin2 hu1 (by omega)
        simp only [pairSums] at this
        simp only [run, sumStep, h, hq, EOF, pairSums, List.map_cons, List.cons_append,
          List.cons_prefix_cons, true_and]
        simpa using this
      · have hne : ¬ (addInt p.1 p.2 = c) := fun e => heq e.symm
        simp [run, sumStep, h, hq, EOF, heq, hne, pairSums, List.cons_prefix_cons]

/-- The sum-checking loop completes one trip for every pair of the input
whose sum the candidate holds, whatever follows in the two files. -/
theorem stateAfter_sumStep_sums (P : List (Int × Int)) :
    ∀ (fin fu : List Char) (R C : List Int) (a b : Int) (junk : Junk),
      ints fin = some (pairInts P ++ R) → ints fu = some (pairSums P ++ C) →
      ∃ fin' fu' a' junk',
        stateAfter sumStep P.length
            { f_in := some fin, f_user := some fu, a := a, b := b, junk := junk }
          = some { f_in := some fin', f_user := some fu', a := a',
                   b := (P.map Prod.snd).getLastD b, junk := junk' } ∧
        ints fin' = some R ∧ ints fu' = some C := by
  induction P with
  | nil =>
    intro fin fu R C a b junk hin hu
    exact ⟨fin, fu, a, junk, rfl, hin, hu⟩
  | cons p P ih =>
    intro fin fu R C a b junk hin hu
    have hin' : ints fin = some (p.1 :: p.2 :: (pairInts P ++ R)) := hin
    have hu' : ints fu = some (addInt p.1 p.2 :: (pairSums P ++ C)) := hu
    obtain ⟨r1, h1, hin1⟩ := ints_cons hin'
    obtain ⟨r2, h2, hin2⟩ := ints_cons hin1
    obtain ⟨ru, hc, hu1⟩ := ints_cons hu'
    have h := fscanf_dd_value a b h1 h2
    have hq := fscanf_d_value (junk 0) hc
    obtain ⟨fin', fu', a', junk', hst, hf, hg⟩ := ih r2 ru R C p.1 p.2 junk.tail hin2 hu1
    refine ⟨fin', fu', a', junk', ?_, hf, hg⟩
    rw [List.map_cons, List.getLastD_cons, ← hst]
    simp [stateAfter, sumStep, h, hq, EOF]

/-- The 32-bit values are the fixed points of the conversion to `int`. -/
theorem toInt32_eq_self_iff (v : Int) :
    toInt32 v = v ↔ -(2 : Int) ^ 31 ≤ v ∧ v < (2 : Int) ^ 31 := by
  unfold toInt32
  constructor
  · intro h; constructor <;> omega
  · rintro ⟨h1, h2⟩; omega

/-! ## Trips on any file of integers -/

/-- What a `"%d%d"` call leaves of a file of integers: all but the first
two. -/
theorem ints_fscanf_dd_file {f : List Char} {R : List Int} (a b : Int) (h : ints f = some R) :
    ints (fscanf_dd f a b).file = some (R.drop 2) := by
  cases R with
  | nil =>
    rw [fscanf_dd_eof a b (ints_nil h)]
    exact ints_of_empty
  | cons x R =>
    cases R with
    | nil =>
      rw [fscanf_dd_single a b h]
      exact ints_of_empty
    | cons y R =>
      obtain ⟨r1, h1, hr1⟩ := ints_cons h
      obtain ⟨r2, h2, hr2⟩ := ints_cons hr1
      rw [fscanf_dd_value a b h1 h2]
      exact hr2

/-- One trip of the sum-checking loop on any input of integers and any
candidate of integers. -/
theorem sumStep_ints {fin fu : List Char} {R C : List Int}
    (a b : Int) (junk : Junk) (hin : ints fin = some R) (hu : ints fu = some C) :
    (R = [] ∧ sumStep { f_in := some fin, f_user := some fu, a := a, b := b, junk := junk }
        = .stop (.exit AC)) ∨
    (R ≠ [] ∧
      (sumStep { f_in := some fin, f_user := some fu, a := a, b := b, junk := junk }
          = .stop (.exit WA) ∨
       (∃ fin' fu' a' b',
          sumStep { f_in := some fin, f_user := some fu, a := a, b := b, junk := junk }
            = .next { f_in := some fin', f_user := some fu', a := a', b := b',
                      junk := junk.tail } ∧
          ints fin' = some (R.drop 2) ∧ ints fu' = some (C.drop 1) ∧ C ≠ [] ∧
          fin'.length < fin.length))) := by
  cases R with
  | nil =>
    left
    have h := fscanf_dd_eof a b (ints_nil hin)
    exact ⟨rfl, by simp [sumStep, h]⟩
  | cons x R =>
    right
    refine ⟨by simp, ?_⟩
    have hne := fscanf_dd_ret_of_cons a b hin
    have hlen : (fscanf_dd fin a b).file.length < fin.length := by
      rcases fscanf_dd_ints a b hin with he | ⟨_, hl, _⟩
      · exact absurd he hne
      · exact hl
    cases C with
    | nil =>
      left
      have hq := fscanf_d_eof (junk 0) (ints_nil hu)
      simp [sumStep, hne, hq]
    | cons c C =>
      obtain ⟨ru, hc, hu1⟩ := ints_cons hu
      have hq := fscanf_d_value (junk 0) hc
      by_cases hcmp : c = addInt (fscanf_dd fin a b).x (fscanf_dd fin a b).y
      · right
        refine ⟨(fscanf_dd fin a b).file, ru, (fscanf_dd fin a b).x, (fscanf_dd fin a b).y,
          ?_, ints_fscanf_dd_file a b hin, hu1, by simp, hlen⟩
        simp only [sumStep]
        rw [if_pos hne, hq]
        simp [EOF, hcmp]
      · left
        simp only [sumStep]
        rw [if_pos hne, hq]
        simp [EOF, hcmp]

/-- The sum-checking loop on any input of integers: at its `k`-th boundary
it has taken `2 k` integers from the input (all of them, when their count
is odd and `2 k` is one more) and `k` from the candidate. -/
theorem stateAfter_sumStep_ints (k : Nat) :
    ∀ (fin fu : List Char) (R C : List Int) (a b : Int) (junk : Junk) (s : SumState),
      ints fin = some R → ints fu = some C →
      stateAfter sumStep k { f_in := some fin, f_user := some fu, a := a, b := b, junk := junk }
        = some s →
      k ≤ (R.length + 1) / 2 ∧ k ≤ C.length ∧
      ∃ fin' fu' a' b' junk', s = { f_in := some fin', f_user := some fu', a := a', b := b',
                                      junk := junk' } ∧
        ints fin' = some (R.drop (2 * k)) ∧ ints fu' = some (C.drop k) := by
  induction k with
  | zero =>
    intro fin fu R C a b junk s hin hu h
    injection h with h
    subst h
    exact ⟨Nat.zero_le _, Nat.zero_le _, fin, fu, a, b, junk, rfl, hin, hu⟩
  | succ k ih =>
    intro fin fu R C a b junk s hin hu h
    rw [stateAfter] at h
    rcases sumStep_ints a b junk hin hu with ⟨_, hstop⟩ | ⟨hR, hcase⟩
    · rw [hstop] at h; cases h
    · rcases hcase with hstop | ⟨fin', fu', a', b', hnext, hin', hu', hC, _⟩
      · rw [hstop] at h; cases h
      · rw [hnext] at h
        obtain ⟨h1, h2, hrest⟩ := ih fin' fu' (R.drop 2) (C.drop 1) a' b' junk.tail s hin' hu' h
        have hRl : 0 < R.length := List.length_pos.mpr hR
        have hCl : 0 < C.length := List.length_pos.mpr hC
        rw [List.length_drop] at h1 h2
        refine ⟨by omega, by omega, ?_⟩
        obtain ⟨f1, f2, a1, b1, j1, hs, hf1, hf2⟩ := hrest
        refine ⟨f1, f2, a1, b1, j1, hs, ?_, ?_⟩
        · rw [hf1, List.drop_drop]
          congr 2
          omega
        · rw [hf2, List.drop_drop]
          congr 2
          omega

/-- One trip of the loop of `spj.cpp` under `METHOD == 1` on any input of
integers and any candidate of integers. -/
theorem userStep1_ints {fin fu : List Char} {R C : List Int}
    (ans : Int) (ja jb : Junk) (hin : ints fin = some R) (hu : ints fu = some C) :
    (C = [] ∧ userStep1 { f_user := some fu, f_in := some fin, ans := ans, junkA := ja,
                          junkB := jb } = .stop (.exit AC)) ∨
    (C ≠ [] ∧
      (userStep1 { f_user := some fu, f_in := some fin, ans := ans, junkA := ja, junkB := jb }
          = .stop (.exit WA) ∨
       (∃ fin' fu' ans',
          userStep1 { f_user := some fu, f_in := some fin, ans := ans, junkA := ja,
                      junkB := jb }
            = .next { f_user := some fu', f_in := some fin', ans := ans', junkA := ja.tail,
                      junkB := jb.tail } ∧
          ints fin' = some (R.drop 2) ∧ ints fu' = some (C.drop 1) ∧
          fu'.length < fu.length))) := by
  cases C with
  | nil =>
    left
    have h := fscanf_d_eof ans (ints_nil hu)
    exact ⟨rfl, by simp [userStep1, h]⟩
  | cons c C =>
    right
    refine ⟨by simp, ?_⟩
    obtain ⟨ru, hc, hu1⟩ := ints_cons hu
    have hlu := conv_d_value_lt hc
    have hq := fscanf_d_value ans hc
    have hne : (fscanf_d fu ans).ret ≠ EOF := fscanf_d_ret_of_cons ans hu
    by_cases hcmp : (fscanf_dd fin (ja 0) (jb 0)).ret ≠ EOF ∧
        addInt (fscanf_dd fin (ja 0) (jb 0)).x (fscanf_dd fin (ja 0) (jb 0)).y
          ≠ (fscanf_d fu ans).x
    · left
      simp only [userStep1]
      rw [if_pos hne, if_pos hcmp]
    · right
      refine ⟨(fscanf_dd fin (ja 0) (jb 0)).file, ru, c, ?_,
        ints_fscanf_dd_file (ja 0) (jb 0) hin, hu1, hlu⟩
      simp only [userStep1]
      rw [if_pos hne, if_neg hcmp, hq]

/-- The loop of `spj.cpp` on any input of integers: at its `k`-th boundary
it has taken `k` integers from the candidate. -/
theorem stateAfter_userStep1_ints (k : Nat) :
    ∀ (fin fu : List Char) (R C : List Int) (ans : Int) (ja jb : Junk) (s : UserState),
      ints fin = some R → ints fu = some C →
      stateAfter userStep1 k
        { f_user := some fu, f_in := some fin, ans := ans, junkA := ja, junkB := jb }
        = some s →
      k ≤ C.length ∧
      ∃ fin' fu' ans' ja' jb', s = { f_user := some fu', f_in := some fin', ans := ans',
                                      junkA := ja', junkB := jb' } ∧
        ints fin' = some (R.drop (2 * k)) ∧ ints fu' = some (C.drop k) := by
  induction k with
  | zero =>
    intro fin fu R C ans ja jb s hin hu h
    injection h with h
    subst h
    exact ⟨Nat.zero_le _, fin, fu, ans, ja, jb, rfl, hin, hu⟩
  | succ k ih =>
    intro fin fu R C ans ja jb s hin hu h
    rw [stateAfter] at h
    rcases userStep1_ints ans ja jb hin hu with ⟨_, hstop⟩ | ⟨hC, hcase⟩
    · rw [hstop] at h; cases h
    · rcases hcase with hstop | ⟨fin', fu', ans', hnext, hin', hu', _⟩
      · rw [hstop] at h; cases h
      · rw [hnext] at h
        obtain ⟨h1, hrest⟩ :=
          ih fin' fu' (R.drop 2) (C.drop 1) ans' ja.tail jb.tail s hin' hu' h
        have hCl : 0 < C.length := List.length_pos.mpr hC
        rw [List.length_drop] at h1
        refine ⟨by omega, ?_⟩
        obtain ⟨f1, f2, a1, j1, j2, hs, hf1, hf2⟩ := hrest
        refine ⟨f1, f2, a1, j1, j2, hs, ?_, ?_⟩
        · rw [hf1, List.drop_drop]
          congr 2
          omega
        · rw [hf2, List.drop_drop]
          congr 2
          omega

/-! ## Properties of the judges -/

/-- C1: the reference-driven judges accept the exact candidate.  Mode A
(`spj.0.cpp`, `spj_0.cpp`, `spj.c`): if the input file holds the pairs `P`
and the candidate file holds exactly their sums (the `int` sums the
program computes, or the exact sums `a_i + b_i`), the exit code is `AC`.
Mode B (`spj.1.cpp`, `spj_1.cpp`): if the answer file and the candidate
file hold the same integers `E`, the exit code is `AC`.  Fuel beyond the
length of the reference file is enough for the loop. -/
theorem C1_exact_candidate_accepted (fuel : Nat) (ref cand : List Char)
    (unread : Option (List Char)) (P : List (Int × Int)) (E : List Int)
    (a b std_ans : Int) (junk : Junk) :
    (ints ref = some (pairInts P) →
      (ints cand = some (pairSums P) ∨ ints cand = some (P.map (fun p => p.1 + p.2))) →
      ref.length < fuel →
      Example.Spj0.main fuel (some ref) unread (some cand) a b junk = some (.exit AC) ∧
      ExampleData.Spj0.main fuel (some ref) unread (some cand) a b junk = some (.exit AC) ∧
      SpjC.main fuel (some ref) (some cand) unread a b junk = some (.exit AC)) ∧
    (ints ref = some E → ints cand = some E → ref.length < fuel →
      Example.Spj1.main fuel unread (some ref) (some cand) std_ans junk = some (.exit AC) ∧
      ExampleData.Spj1.main fuel unread (some ref) (some cand) std_ans junk
        = some (.exit AC)) := by
  constructor
  · intro href hcand hfuel
    have hcand : ints cand = some (pairSums P) := by
      rcases hcand with h | h
      · exact h
      · rw [h, pairSums_eq_of_ints h]
    have h := run_sumStep_ints P fuel ref cand (pairSums P) a b junk href hcand hfuel
    rw [if_pos (List.prefix_refl _)] at h
    exact ⟨h, h, h⟩
  · intro href hcand hfuel
    have h := run_valStep_ints E fuel ref cand E std_ans junk href hcand hfuel
    rw [if_pos (List.prefix_refl _)] at h
    exact ⟨h, h⟩

/-- C1 at input "1 2\n3 4" with candidate "3\n7" (Mode A) and at answer
"5\n9" with candidate "5 9" (Mode B). -/
theorem C1_exact_candidate_accepted_witness :
    (Example.Spj0.main 8 (some "1 2\n3 4".toList) none (some "3\n7".toList) 0 0 (fun _ => 0)
        = some (.exit AC) ∧
      ExampleData.Spj0.main 8 (some "1 2\n3 4".toList) none (some "3\n7".toList) 0 0 (fun _ => 0)
        = some (.exit AC) ∧
      SpjC.main 8 (some "1 2\n3 4".toList) (some "3\n7".toList) none 0 0 (fun _ => 0)
        = some (.exit AC)) ∧
    (Example.Spj1.main 4 none (some "5\n9".toList) (some "5 9".toList) 0 (fun _ => 0)
        = some (.exit AC) ∧
      ExampleData.Spj1.main 4 none (some "5\n9".toList) (some "5 9".toList) 0 (fun _ => 0)
        = some (.exit AC)) :=
  ⟨(C1_exact_candidate_accepted 8 "1 2\n3 4".toList "3\n7".toList none [(1, 2), (3, 4)] []
      0 0 0 (fun _ => 0)).1 (by decide) (Or.inl (by decide)) (by decide),
   (C1_exact_candidate_accepted 4 "5\n9".toList "5 9".toList none [] [5, 9]
      0 0 0 (fun _ => 0)).2 (by decide) (by decide) (by decide)⟩

/-- C2: the reference-driven judges reject a candidate with a wrong token.
If the reference yields the expected values (the `int` sums of the pairs
`P` in Mode A, the answers `E` in Mode B), the candidate file holds the
integers `C`, and at some index `i` both `C[i] = c` and the expected value
`e` exist with `c ≠ e`, the exit code is `WA`, whatever stands at the
other indices. -/
theorem C2_wrong_token_rejected (fuel : Nat) (ref cand : List Char)
    (unread : Option (List Char)) (P : List (Int × Int)) (E C : List Int) (i : Nat) (c e : Int)
    (a b std_ans : Int) (junk : Junk)
    (hcand : ints cand = some C) (hc : C[i]? = some c) (hne : c ≠ e) (hfuel : ref.length < fuel) :
    (ints ref = some (pairInts P) → (pairSums P)[i]? = some e →
      Example.Spj0.main fuel (some ref) unread (some cand) a b junk = some (.exit WA) ∧
      ExampleData.Spj0.main fuel (some ref) unread (some cand) a b junk = some (.exit WA) ∧
      SpjC.main fuel (some ref) (some cand) unread a b junk = some (.exit WA)) ∧
    (ints ref = some E → E[i]? = some e →
      Example.Spj1.main fuel unread (some ref) (some cand) std_ans junk = some (.exit WA) ∧
      ExampleData.Spj1.main fuel unread (some ref) (some cand) std_ans junk
        = some (.exit WA)) := by
  constructor
  · intro href he
    have h := run_sumStep_ints P fuel ref cand C a b junk href hcand hfuel
    rw [if_neg (not_prefix_of_getElem_ne hc he hne)] at h
    exact ⟨h, h, h⟩
  · intro href he
    have h := run_valStep_ints E fuel ref cand C std_ans junk href hcand hfuel
    rw [if_neg (not_prefix_of_getElem_ne hc he hne)] at h
    exact ⟨h, h⟩

/-- C2 at input "1 2\n3 4" with candidate "3\n8\n0" (index 1: 8 against
7) and at answer "5\n9" with candidate "5 8". -/
theorem C2_wrong_token_rejected_witness :
    (Example.Spj0.main 8 (some "1 2\n3 4".toList) none (some "3\n8\n0".toList) 0 0 (fun _ => 0)
        = some (.exit WA) ∧
      ExampleData.Spj0.main 8 (some "1 2\n3 4".toList) none (some "3\n8\n0".toList) 0 0
        (fun _ => 0) = some (.exit WA) ∧
      SpjC.main 8 (some "1 2\n3 4".toList) (some "3\n8\n0".toList) none 0 0 (fun _ => 0)
        = some (.exit WA)) ∧
    (Example.Spj1.main 4 none (some "5\n9".toList) (some "5 8".toList) 0 (fun _ => 0)
        = some (.exit WA) ∧
      ExampleData.Spj1.main 4 none (some "5\n9".toList) (some "5 8".toList) 0 (fun _ => 0)
        = some (.exit WA)) :=
  ⟨(C2_wrong_token_rejected 8 "1 2\n3 4".toList "3\n8\n0".toList none [(1, 2), (3, 4)] []
      [3, 8, 0] 1 8 7 0 0 0 (fun _ => 0) (by decide) (by decide) (by decide) (by decide)).1
      (by decide) (by decide),
   (C2_wrong_token_rejected 4 "5\n9".toList "5 8".toList none [] [5, 9]
      [5, 8] 1 8 9 0 0 0 (fun _ => 0) (by decide) (by decide) (by decide) (by decide)).2
      (by decide) (by decide)⟩

/-- C3: the reference-driven judges reject a candidate that runs out.  If
the reference yields `n` expected values and the candidate file holds
fewer than `n` integers (possibly none, possibly all of them correct), the
exit code is `WA`. -/
theorem C3_short_candidate_rejected (fuel : Nat) (ref cand : List Char)
    (unread : Option (List Char)) (P : List (Int × Int)) (E C : List Int)
    (a b std_ans : Int) (junk : Junk)
    (hcand : ints cand = some C) (hfuel : ref.length < fuel) :
    (ints ref = some (pairInts P) → C.length < P.length →
      Example.Spj0.main fuel (some ref) unread (some cand) a b junk = some (.exit WA) ∧
      ExampleData.Spj0.main fuel (some ref) unread (some cand) a b junk = some (.exit WA) ∧
      SpjC.main fuel (some ref) (some cand) unread a b junk = some (.exit WA)) ∧
    (ints ref = some E → C.length < E.length →
      Example.Spj1.main fuel unread (some ref) (some cand) std_ans junk = some (.exit WA) ∧
      ExampleData.Spj1.main fuel unread (some ref) (some cand) std_ans junk
        = some (.exit WA)) := by
  constructor
  · intro href hlen
    have h := run_sumStep_ints P fuel ref cand C a b junk href hcand hfuel
    rw [if_neg (not_prefix_of_length_lt (by rw [pairSums_length]; exact hlen))] at h
    exact ⟨h, h, h⟩
  · intro href hlen
    have h := run_valStep_ints E fuel ref cand C std_ans junk href hcand hfuel
    rw [if_neg (not_prefix_of_length_lt hlen)] at h
    exact ⟨h, h⟩

/-- C3 at input "1 2\n3 4" with the correct but short candidate "3" and
at answer "5\n9" with the empty candidate. -/
theorem C3_short_candidate_rejected_witness :
    (Example.Spj0.main 8 (some "1 2\n3 4".toList) none (some "3".toList) 0 0 (fun _ => 0)
        = some (.exit WA) ∧
      ExampleData.Spj0.main 8 (some "1 2\n3 4".toList) none (some "3".toList) 0 0 (fun _ => 0)
        = some (.exit WA) ∧
      SpjC.main 8 (some "1 2\n3 4".toList) (some "3".toList) none 0 0 (fun _ => 0)
        = some (.exit WA)) ∧
    (Example.Spj1.main 4 none (some "5\n9".toList) (some []) 0 (fun _ => 0)
        = some (.exit WA) ∧
      ExampleData.Spj1.main 4 none (some "5\n9".toList) (some []) 0 (fun _ => 0)
        = some (.exit WA)) :=
  ⟨(C3_short_candidate_rejected 8 "1 2\n3 4".toList "3".toList none [(1, 2), (3, 4)] []
      [3] 0 0 0 (fun _ => 0) (by decide) (by decide)).1 (by decide) (by decide),
   (C3_short_candidate_rejected 4 "5\n9".toList [] none [] [5, 9]
      [] 0 0 0 (fun _ => 0) (by decide) (by decide)).2 (by decide) (by decide)⟩

/-- C4: trailing candidate tokens never change the outcome of the
reference-driven judges.  If the reference yields `n` expected values, the
candidate file `cand` holds the integers `C` with `n ≤ len C`, and
`cand'` holds `C ++ T`, then every program returns on `cand'` what it
returns on `cand`, and that is `AC` when the first `n` integers of `C`
are the expected values (`WA` otherwise). -/
theorem C4_trailing_tokens_ignored (fuel : Nat) (ref cand cand' : List Char)
    (unread : Option (List Char)) (P : List (Int × Int)) (E C T : List Int)
    (a b std_ans : Int) (junk : Junk)
    (hcand : ints cand = some C) (hcand' : ints cand' = some (C ++ T))
    (hfuel : ref.length < fuel) :
    (ints ref = some (pairInts P) → P.length ≤ C.length →
      (Example.Spj0.main fuel (some ref) unread (some cand') a b junk
          = Example.Spj0.main fuel (some ref) unread (some cand) a b junk ∧
        Example.Spj0.main fuel (some ref) unread (some cand) a b junk
          = some (.exit (if C.take P.length = pairSums P then AC else WA))) ∧
      (ExampleData.Spj0.main fuel (some ref) unread (some cand') a b junk
          = ExampleData.Spj0.main fuel (some ref) unread (some cand) a b junk ∧
        ExampleData.Spj0.main fuel (some ref) unread (some cand) a b junk
          = some (.exit (if C.take P.length = pairSums P then AC else WA))) ∧
      (SpjC.main fuel (some ref) (some cand') unread a b junk
          = SpjC.main fuel (some ref) (some cand) unread a b junk ∧
        SpjC.main fuel (some ref) (some cand) unread a b junk
          = some (.exit (if C.take P.length = pairSums P then AC else WA)))) ∧
    (ints ref = some E → E.length ≤ C.length →
      (Example.Spj1.main fuel unread (some ref) (some cand') std_ans junk
          = Example.Spj1.main fuel unread (some ref) (some cand) std_ans junk ∧
        Example.Spj1.main fuel unread (some ref) (some cand) std_ans junk
          = some (.exit (if C.take E.length = E then AC else WA))) ∧
      (ExampleData.Spj1.main fuel unread (some ref) (some cand') std_ans junk
          = ExampleData.Spj1.main fuel unread (some ref) (some cand) std_ans junk ∧
        ExampleData.Spj1.main fuel unread (some ref) (some cand) std_ans junk
          = some (.exit (if C.take E.length = E then AC else WA)))) := by
  constructor
  · intro href hlen
    have h := run_sumStep_ints P fuel ref cand C a b junk href hcand hfuel
    have h' := run_sumStep_ints P fuel ref cand' (C ++ T) a b junk href hcand' hfuel
    have hiff : pairSums P <+: C ++ T ↔ pairSums P <+: C :=
      prefix_append_iff_of_length_le T (by rw [pairSums_length]; exact hlen)
    rw [if_congr hiff rfl rfl, ← h] at h'
    rw [if_congr (prefix_iff_take_eq (pairSums P) C) rfl rfl, pairSums_length] at h
    exact ⟨⟨h', h⟩, ⟨h', h⟩, ⟨h', h⟩⟩
  · intro href hlen
    have h := run_valStep_ints E fuel ref cand C std_ans junk href hcand hfuel
    have h' := run_valStep_ints E fuel ref cand' (C ++ T) std_ans junk href hcand' hfuel
    have hiff : E <+: C ++ T ↔ E <+: C := prefix_append_iff_of_length_le T hlen
    rw [if_congr hiff rfl rfl, ← h] at h'
    rw [if_congr (prefix_iff_take_eq E C) rfl rfl] at h
    exact ⟨⟨h', h⟩, ⟨h', h⟩⟩

/-- C4 at the Mode B scenario of the specification (answer "5\n9", where
candidate "5\n9\n100" gives what candidate "5\n9" gives, which is `AC`)
and at input "1 2\n3 4" with candidates "3\n7\n100" and "3\n7". -/
theorem C4_trailing_tokens_ignored_witness :
    (Example.Spj1.main 4 none (some "5\n9".toList) (some "5\n9\n100".toList) 0 (fun _ => 0)
        = Example.Spj1.main 4 none (some "5\n9".toList) (some "5\n9".toList) 0 (fun _ => 0) ∧
      Example.Spj1.main 4 none (some "5\n9".toList) (some "5\n9\n100".toList) 0 (fun _ => 0)
        = some (.exit AC)) ∧
    (Example.Spj0.main 8 (some "1 2\n3 4".toList) none (some "3\n7\n100".toList) 0 0
        (fun _ => 0)
        = Example.Spj0.main 8 (some "1 2\n3 4".toList) none (some "3\n7".toList) 0 0
          (fun _ => 0) ∧
      Example.Spj0.main 8 (some "1 2\n3 4".toList) none (some "3\n7\n100".toList) 0 0
        (fun _ => 0) = some (.exit AC)) :=
  have hB := ((C4_trailing_tokens_ignored 4 "5\n9".toList "5\n9".toList "5\n9\n100".toList none
    [] [5, 9] [5, 9] [100] 0 0 0 (fun _ => 0) (by decide) (by decide) (by decide)).2
    (by decide) (by decide)).1
  have hA := ((C4_trailing_tokens_ignored 8 "1 2\n3 4".toList "3\n7".toList "3\n7\n100".toList
    none [(1, 2), (3, 4)] [] [3, 7] [100] 0 0 0 (fun _ => 0) (by decide) (by decide)
    (by decide)).1 (by decide) (by decide)).1
  ⟨⟨hB.1, hB.1.trans (hB.2.trans (by decide))⟩, ⟨hA.1, hA.1.trans (hA.2.trans (by decide))⟩⟩

/-- C5 (as amended): `spj.cpp` (compiled with `METHOD == 1`) and `spj.0.cpp`
on the same arguments, an input file of `n` pairs and a candidate file of
integers `C`.  Unless `C` is a correct proper initial segment of the
expected sums (fewer than `n` integers, each one right), both return the
same exit code; on such a `C`, `spj.cpp` returns `AC` and `spj.0.cpp`
returns `WA`. -/
theorem C5_spj_differs_only_on_short_candidate (fuel : Nat) (inp cand : List Char)
    (unread : Option (List Char)) (P : List (Int × Int)) (C : List Int)
    (a b : Int) (junk ja jb : Junk)
    (hin : ints inp = some (pairInts P)) (hcand : ints cand = some C)
    (hfuel : inp.length < fuel) (hfuel' : cand.length < fuel) :
    (¬ (C.length < P.length ∧ C <+: pairSums P) →
      Example.Spj.main fuel (some inp) unread (some cand) ja jb
        = Example.Spj0.main fuel (some inp) unread (some cand) a b junk ∧
      Example.Spj0.main fuel (some inp) unread (some cand) a b junk
        = some (.exit (if pairSums P <+: C then AC else WA))) ∧
    (C.length < P.length ∧ C <+: pairSums P →
      Example.Spj.main fuel (some inp) unread (some cand) ja jb = some (.exit AC) ∧
      Example.Spj0.main fuel (some inp) unread (some cand) a b junk = some (.exit WA)) := by
  have h0 : Example.Spj0.main fuel (some inp) unread (some cand) a b junk = _ :=
    run_sumStep_ints P fuel inp cand C a b junk hin hcand hfuel
  have h1 := run_userStep1_ints C fuel inp cand P 0 ja jb hin hcand hfuel'
  rw [← spj_main_eq_run fuel (some inp) unread (some cand) ja jb] at h1
  constructor
  · intro hnot
    refine ⟨?_, h0⟩
    rw [h0, h1]
    by_cases hlen : P.length ≤ C.length
    · have hiff := take_prefix_iff_of_length_le (E := pairSums P) (C := C)
        (by rw [pairSums_length]; exact hlen)
      rw [pairSums_length] at hiff
      rw [if_congr hiff rfl rfl]
    · have hlt : C.length < P.length := by omega
      have hnp : ¬ (C <+: pairSums P) := fun hp => hnot ⟨hlt, hp⟩
      rw [List.take_of_length_le (by omega), if_neg hnp,
        if_neg (not_prefix_of_length_lt (by rw [pairSums_length]; exact hlt))]
  · rintro ⟨hlt, hp⟩
    rw [List.take_of_length_le (by omega), if_pos hp] at h1
    rw [if_neg (not_prefix_of_length_lt (by rw [pairSums_length]; exact hlt))] at h0
    exact ⟨h1, h0⟩

/-- C5 (as amended) at input "1 2\n3 4": with candidate "3\n8" both
programs return `WA`; with candidate "3" `spj.cpp` returns `AC` and
`spj.0.cpp` returns `WA`. -/
theorem C5_spj_differs_only_on_short_candidate_witness :
    (Example.Spj.main 8 (some "1 2\n3 4".toList) none (some "3\n8".toList) (fun _ => 0) (fun _ => 0)
        = Example.Spj0.main 8 (some "1 2\n3 4".toList) none (some "3\n8".toList) 0 0 (fun _ => 0) ∧
      Example.Spj0.main 8 (some "1 2\n3 4".toList) none (some "3\n8".toList) 0 0 (fun _ => 0)
        = some (.exit WA)) ∧
    (Example.Spj.main 8 (some "1 2\n3 4".toList) none (some "3".toList) (fun _ => 0) (fun _ => 0)
        = some (.exit AC) ∧
      Example.Spj0.main 8 (some "1 2\n3 4".toList) none (some "3".toList) 0 0 (fun _ => 0)
        = some (.exit WA)) :=
  ⟨(C5_spj_differs_only_on_short_candidate 8 "1 2\n3 4".toList "3\n8".toList none [(1, 2), (3, 4)]
      [3, 8] 0 0 (fun _ => 0) (fun _ => 0) (fun _ => 0) (by decide) (by decide) (by decide)
      (by decide)).1 (by decide),
   (C5_spj_differs_only_on_short_candidate 8 "1 2\n3 4".toList "3".toList none [(1, 2), (3, 4)]
      [3] 0 0 (fun _ => 0) (fun _ => 0) (fun _ => 0) (by decide) (by decide) (by decide)
      (by decide)).2 (by decide)⟩

/-- C5 as stated fails: on input "1 2" and an empty candidate file,
`spj.cpp` returns `AC` and `spj.0.cpp` returns `WA`. -/
theorem C5_counterexample :
    Example.Spj.main 4 (some "1 2".toList) none (some []) (fun _ => 0) (fun _ => 0)
      = some (.exit AC) ∧
    Example.Spj0.main 4 (some "1 2".toList) none (some []) 0 0 (fun _ => 0)
      = some (.exit WA) ∧
    Example.Spj.main 4 (some "1 2".toList) none (some []) (fun _ => 0) (fun _ => 0)
      ≠ Example.Spj0.main 4 (some "1 2".toList) none (some []) 0 0 (fun _ => 0) := by
  decide

/-- C6 (as amended): a non-numeric token is not treated like end-of-stream.
Let a token begin with a character `c` that is no digit, no sign and no
white space, and let `r` be what follows `c` in the file.  On `c :: r`
both `fscanf` calls return 0, not `EOF`, assign nothing and leave the
token unread.  (i) If the candidate file is integers `C` followed by the
token, and an expected value `e` is pending at index `len C`, the
comparison uses what the unassigned variable holds on that trip, and the
program returns `WA` when that value differs from `e`.  (ii) If the
reference file is integers followed by the token, the program does not
stop scanning there: it returns `WA` for every candidate file of
integers. -/
theorem C6_unread_token_is_not_eof (fuel : Nat) (ref cand pre r : List Char) (c : Char)
    (unread : Option (List Char)) (P : List (Int × Int)) (E C xs : List Int)
    (e a b std_ans x y : Int) (junk : Junk)
    (hsp : isspace c = false) (hdg : isdigit c = false) (hminus : c ≠ '-')
    (hplus : c ≠ '+') :
    (fscanf_d (c :: r) x = ⟨0, x, c :: r⟩ ∧ fscanf_dd (c :: r) x y = ⟨0, x, y, c :: r⟩) ∧
    (ints ref = some (pairInts P) → ints pre = some C → (pairSums P)[C.length]? = some e →
      junk C.length ≠ e → ref.length < fuel →
      Example.Spj0.main fuel (some ref) unread (some (pre ++ c :: r)) a b junk
        = some (.exit WA) ∧
      ExampleData.Spj0.main fuel (some ref) unread (some (pre ++ c :: r)) a b junk
        = some (.exit WA) ∧
      SpjC.main fuel (some ref) (some (pre ++ c :: r)) unread a b junk = some (.exit WA)) ∧
    (ints ref = some E → ints pre = some C → E[C.length]? = some e →
      junk C.length ≠ e → ref.length < fuel →
      Example.Spj1.main fuel unread (some ref) (some (pre ++ c :: r)) std_ans junk
        = some (.exit WA) ∧
      ExampleData.Spj1.main fuel unread (some ref) (some (pre ++ c :: r)) std_ans junk
        = some (.exit WA)) ∧
    (ints pre = some xs → ints cand = some C → cand.length < fuel →
      Example.Spj0.main fuel (some (pre ++ c :: r)) unread (some cand) a b junk
        = some (.exit WA) ∧
      ExampleData.Spj0.main fuel (some (pre ++ c :: r)) unread (some cand) a b junk
        = some (.exit WA) ∧
      SpjC.main fuel (some (pre ++ c :: r)) (some cand) unread a b junk = some (.exit WA) ∧
      Example.Spj1.main fuel unread (some (pre ++ c :: r)) (some cand) std_ans junk
        = some (.exit WA) ∧
      ExampleData.Spj1.main fuel unread (some (pre ++ c :: r)) (some cand) std_ans junk
        = some (.exit WA)) := by
  have ht : conv_d (c :: r) = .matchFailure (c :: r) := conv_d_unread c r hsp hdg hminus hplus
  refine ⟨⟨by simp [fscanf_d, ht], by simp [fscanf_dd, ht]⟩, ?_, ?_, ?_⟩
  · intro href hpre he hj hfuel
    have h := run_sumStep_cand_unread P fuel ref pre (c :: r) C e a b junk href hpre ht he hj
      hfuel
    exact ⟨h, h, h⟩
  · intro href hpre he hj hfuel
    have h := run_valStep_cand_unread E fuel ref pre (c :: r) C e std_ans junk href hpre ht he
      hj hfuel
    exact ⟨h, h⟩
  · intro hpre hcand hfuel
    have h := run_sumStep_ref_unread C fuel pre (c :: r) cand xs a b junk hpre ht hcand hfuel
    have h' := run_valStep_ref_unread C fuel pre (c :: r) cand xs std_ans junk hpre ht hcand
      hfuel
    exact ⟨h, h, h, h', h'⟩

/-- C6 (as amended) at the token "x" followed by " 9": candidate "3 x 9"
against input "1 2\n3 4" with 0 in the unassigned variable, candidate
"5 x 9" against answer "5\n9", and reference "1 2 x 9" against candidate
"3". -/
theorem C6_unread_token_is_not_eof_witness :
    (fscanf_d "x 9".toList 7 = ⟨0, 7, "x 9".toList⟩ ∧
      fscanf_dd "x 9".toList 7 8 = ⟨0, 7, 8, "x 9".toList⟩) ∧
    Example.Spj0.main 8 (some "1 2\n3 4".toList) none (some "3 x 9".toList) 0 0
      (fun _ => 0) = some (.exit WA) ∧
    Example.Spj1.main 8 none (some "5\n9".toList) (some "5 x 9".toList) 0
      (fun _ => 0) = some (.exit WA) ∧
    Example.Spj0.main 8 (some "1 2 x 9".toList) none (some "3".toList) 0 0
      (fun _ => 0) = some (.exit WA) ∧
    Example.Spj1.main 8 none (some "1 2 x 9".toList) (some "3".toList) 0
      (fun _ => 0) = some (.exit WA) :=
  have hA := C6_unread_token_is_not_eof 8 "1 2\n3 4".toList "3".toList "3 ".toList " 9".toList
    'x' none [(1, 2), (3, 4)] [] [3] [] 7 0 0 0 7 8 (fun _ => 0)
    (by decide) (by decide) (by decide) (by decide)
  have hB := C6_unread_token_is_not_eof 8 "5\n9".toList "3".toList "5 ".toList " 9".toList
    'x' none [] [5, 9] [5] [] 9 0 0 0 7 8 (fun _ => 0)
    (by decide) (by decide) (by decide) (by decide)
  have hR := C6_unread_token_is_not_eof 8 [] "3".toList "1 2 ".toList " 9".toList
    'x' none [] [] [3] [1, 2] 0 0 0 0 7 8 (fun _ => 0)
    (by decide) (by decide) (by decide) (by decide)
  ⟨hA.1,
   (hA.2.1 (by decide) (by decide) (by decide) (by decide) (by decide)).1,
   (hB.2.2.1 (by decide) (by decide) (by decide) (by decide) (by decide)).1,
   (hR.2.2.2 (by decide) (by decide) (by decide)).1,
   (hR.2.2.2 (by decide) (by decide) (by decide)).2.2.2.1⟩

/-- C6 as stated fails.  (ii) On input "1 2 x" with candidate "3"
`spj.0.cpp` returns `WA`, while on the input cut before the token, "1 2 ",
it returns `AC`; likewise `spj.1.cpp` on answer "5 x" with candidate "5".
(i) On input "1 2\n2 1" with candidate "3 x", when the unassigned `ans`
holds 3 on the second trip, `spj.0.cpp` returns `AC`, while on the
candidate cut before the token, "3 ", it returns `WA`. -/
theorem C6_counterexample :
    (Example.Spj0.main 4 (some "1 2 x".toList) none (some "3".toList) 0 0 (fun _ => 0)
        = some (.exit WA) ∧
      Example.Spj0.main 4 (some "1 2 ".toList) none (some "3".toList) 0 0 (fun _ => 0)
        = some (.exit AC)) ∧
    (Example.Spj1.main 4 none (some "5 x".toList) (some "5".toList) 0 (fun _ => 0)
        = some (.exit WA) ∧
      Example.Spj1.main 4 none (some "5 ".toList) (some "5".toList) 0 (fun _ => 0)
        = some (.exit AC)) ∧
    (Example.Spj0.main 4 (some "1 2\n2 1".toList) none (some "3 x".toList) 0 0 (fun _ => 3)
        = some (.exit AC) ∧
      Example.Spj0.main 4 (some "1 2\n2 1".toList) none (some "3 ".toList) 0 0 (fun _ => 3)
        = some (.exit WA)) := by
  decide

/-- C7: with an empty reference (its integers are none: the first read
meets the end of the file) the reference-driven judges return `AC` for
every candidate stream, whatever it holds.  The candidate is not read at
all: the result is `AC` even for `cand = none`, the null stream on which a
read would be undefined.  One unit of fuel is enough. -/
theorem C7_empty_reference_accepted (fuel : Nat) (ref : List Char)
    (cand unread : Option (List Char)) (a b std_ans : Int) (junk : Junk)
    (href : ints ref = some []) :
    Example.Spj0.main (fuel + 1) (some ref) unread cand a b junk = some (.exit AC) ∧
    ExampleData.Spj0.main (fuel + 1) (some ref) unread cand a b junk = some (.exit AC) ∧
    SpjC.main (fuel + 1) (some ref) cand unread a b junk = some (.exit AC) ∧
    Example.Spj1.main (fuel + 1) unread (some ref) cand std_ans junk = some (.exit AC) ∧
    ExampleData.Spj1.main (fuel + 1) unread (some ref) cand std_ans junk = some (.exit AC) := by
  have h2 := fscanf_dd_eof a b (ints_nil href)
  have h1 := fscanf_d_eof std_ans (ints_nil href)
  have hA : run sumStep (fuel + 1)
      { f_in := some ref, f_user := cand, a := a, b := b, junk := junk } = some (.exit AC) := by
    simp [run, sumStep, h2]
  have hB : run valStep (fuel + 1)
      { f_out := some ref, f_user := cand, std_ans := std_ans, junk := junk }
        = some (.exit AC) := by
    simp [run, valStep, h1]
  exact ⟨hA, hA, hA, hB, hB⟩

/-- C7 at a reference of white space only, with a candidate "7 x" for
`spj.0.cpp`, an empty one for `spj_0.cpp` and a null one for the others. -/
theorem C7_empty_reference_accepted_witness :
    Example.Spj0.main 1 (some " \n".toList) none (some "7 x".toList) 0 0 (fun _ => 0)
      = some (.exit AC) ∧
    ExampleData.Spj0.main 1 (some " \n".toList) none (some []) 0 0 (fun _ => 0)
      = some (.exit AC) ∧
    SpjC.main 1 (some " \n".toList) none none 0 0 (fun _ => 0) = some (.exit AC) ∧
    Example.Spj1.main 1 none (some " \n".toList) none 0 (fun _ => 0) = some (.exit AC) ∧
    ExampleData.Spj1.main 1 none (some " \n".toList) none 0 (fun _ => 0) = some (.exit AC) :=
  ⟨(C7_empty_reference_accepted 0 " \n".toList (some "7 x".toList) none 0 0 0 (fun _ => 0)
      (by decide)).1,
   (C7_empty_reference_accepted 0 " \n".toList (some []) none 0 0 0 (fun _ => 0)
      (by decide)).2.1,
   (C7_empty_reference_accepted 0 " \n".toList none none 0 0 0 (fun _ => 0)
      (by decide)).2.2⟩

/-- C8: the Mode A scenario of the specification on `spj.0.cpp`.  With
input file "1 2\n3 4" the exit code is `AC` for candidate "3\n7", `WA` for
candidate "3\n8" and `WA` for candidate "3", for every file at `args[2]`
and every content of the uninitialised variables; three trips of the loop
are enough. -/
theorem C8_mode_a_scenario (fuel : Nat) (unread : Option (List Char)) (a b : Int)
    (junk : Junk) :
    Example.Spj0.main (fuel + 3) (some "1 2\n3 4".toList) unread (some "3\n7".toList) a b junk
      = some (.exit AC) ∧
    Example.Spj0.main (fuel + 3) (some "1 2\n3 4".toList) unread (some "3\n8".toList) a b junk
      = some (.exit WA) ∧
    Example.Spj0.main (fuel + 3) (some "1 2\n3 4".toList) unread (some "3".toList) a b junk
      = some (.exit WA) :=
  ⟨rfl, rfl, rfl⟩

/-- C9: the outcome depends on two of the three files only.  `spj.0.cpp`
and `spj_0.cpp` give the same result for any two streams `y`, `y'` at
`args[2]`; `spj.1.cpp` and `spj_1.cpp` give the same result for any two
streams `y`, `y'` at `args[1]` (a stream may even be null). -/
theorem C9_one_file_never_read (fuel : Nat) (x y y' z : Option (List Char))
    (a b std_ans : Int) (junk : Junk) :
    Example.Spj0.main fuel x y z a b junk = Example.Spj0.main fuel x y' z a b junk ∧
    ExampleData.Spj0.main fuel x y z a b junk = ExampleData.Spj0.main fuel x y' z a b junk ∧
    Example.Spj1.main fuel y x z std_ans junk = Example.Spj1.main fuel y' x z std_ans junk ∧
    ExampleData.Spj1.main fuel y x z std_ans junk
      = ExampleData.Spj1.main fuel y' x z std_ans junk :=
  ⟨rfl, rfl, rfl, rfl⟩

/-- C10: `spj.c` and `spj_0.cpp` differ in argument order only.  For all
streams `x`, `y`, `z`, `spj.c` on `(x, y, z)` gives what `spj_0.cpp` gives
on `(x, z, y)`; and on the same arguments `("1 2", "3", "4")` `spj.c`
returns `AC` while `spj_0.cpp` returns `WA`. -/
theorem C10_spj_c_swaps_two_arguments :
    (∀ (fuel : Nat) (x y z : Option (List Char)) (a b : Int) (junk : Junk),
      SpjC.main fuel x y z a b junk = ExampleData.Spj0.main fuel x z y a b junk) ∧
    (∃ x y z : List Char, ∀ (fuel : Nat) (a b : Int) (junk : Junk),
      SpjC.main (fuel + 2) (some x) (some y) (some z) a b junk = some (.exit AC) ∧
      ExampleData.Spj0.main (fuel + 2) (some x) (some y) (some z) a b junk = some (.exit WA) ∧
      SpjC.main (fuel + 2) (some x) (some y) (some z) a b junk
        ≠ ExampleData.Spj0.main (fuel + 2) (some x) (some y) (some z) a b junk) := by
  refine ⟨fun _ _ _ _ _ _ _ => rfl, "1 2".toList, "3".toList, "4".toList, ?_⟩
  intro fuel a b junk
  have hc : SpjC.main (fuel + 2) (some "1 2".toList) (some "3".toList) (some "4".toList) a b junk
      = some (.exit AC) := rfl
  have hd : ExampleData.Spj0.main (fuel + 2) (some "1 2".toList) (some "3".toList)
      (some "4".toList) a b junk = some (.exit WA) := rfl
  refine ⟨hc, hd, ?_⟩
  rw [hc, hd]
  decide

/-- C11: every one of the six programs, on three opened files of
white-space-separated decimal integers, returns exit code `AC` (0) or `WA`
(1); in particular `spj.cpp` as shipped (`METHOD` defined as 1) never
returns -1.  Fuel beyond the length of every file is enough. -/
theorem C11_exit_code_is_AC_or_WA (fuel : Nat) (f1 f2 f3 : List Char) (R1 R2 R3 : List Int)
    (a b std_ans : Int) (junk ja jb : Junk)
    (h1 : ints f1 = some R1) (h2 : ints f2 = some R2) (h3 : ints f3 = some R3)
    (hfuel1 : f1.length < fuel) (hfuel2 : f2.length < fuel) (hfuel3 : f3.length < fuel) :
    (Example.Spj0.main fuel (some f1) (some f2) (some f3) a b junk = some (.exit AC) ∨
      Example.Spj0.main fuel (some f1) (some f2) (some f3) a b junk = some (.exit WA)) ∧
    (Example.Spj1.main fuel (some f1) (some f2) (some f3) std_ans junk = some (.exit AC) ∨
      Example.Spj1.main fuel (some f1) (some f2) (some f3) std_ans junk = some (.exit WA)) ∧
    (ExampleData.Spj0.main fuel (some f1) (some f2) (some f3) a b junk = some (.exit AC) ∨
      ExampleData.Spj0.main fuel (some f1) (some f2) (some f3) a b junk = some (.exit WA)) ∧
    (ExampleData.Spj1.main fuel (some f1) (some f2) (some f3) std_ans junk = some (.exit AC) ∨
      ExampleData.Spj1.main fuel (some f1) (some f2) (some f3) std_ans junk
        = some (.exit WA)) ∧
    (SpjC.main fuel (some f1) (some f2) (some f3) a b junk = some (.exit AC) ∨
      SpjC.main fuel (some f1) (some f2) (some f3) a b junk = some (.exit WA)) ∧
    (Example.Spj.main fuel (some f1) (some f2) (some f3) ja jb = some (.exit AC) ∨
      Example.Spj.main fuel (some f1) (some f2) (some f3) ja jb = some (.exit WA)) ∧
    Example.Spj.main fuel (some f1) (some f2) (some f3) ja jb ≠ some (.exit (-1)) := by
  have hA := run_sumStep_exit fuel f1 f3 R1 R3 a b junk h1 h3 hfuel1
  have hC := run_sumStep_exit fuel f1 f2 R1 R2 a b junk h1 h2 hfuel1
  have hB : run valStep fuel
        { f_out := some f2, f_user := some f3, std_ans := std_ans, junk := junk }
        = some (.exit AC) ∨
      run valStep fuel { f_out := some f2, f_user := some f3, std_ans := std_ans, junk := junk }
        = some (.exit WA) := by
    rw [run_valStep_ints R2 fuel f2 f3 R3 std_ans junk h2 h3 hfuel2]
    by_cases hp : R2 <+: R3
    · left; rw [if_pos hp]
    · right; rw [if_neg hp]
  have hU := run_userStep1_exit fuel f1 f3 R1 R3 0 ja jb h1 h3 hfuel3
  rw [← spj_main_eq_run fuel (some f1) (some f2) (some f3) ja jb] at hU
  refine ⟨hA, hB, hA, hB, hC, hU, ?_⟩
  rcases hU with h | h <;> rw [h] <;> decide

/-- C11 at the files "1 2\n3 4", "3\n7" and "3\n8". -/
theorem C11_exit_code_is_AC_or_WA_witness :
    Example.Spj0.main 8 (some "1 2\n3 4".toList) (some "3\n7".toList) (some "3\n8".toList) 0 0
        (fun _ => 0) = some (.exit WA) ∧
    SpjC.main 8 (some "1 2\n3 4".toList) (some "3\n7".toList) (some "3\n8".toList) 0 0
        (fun _ => 0) = some (.exit AC) ∧
    Example.Spj.main 8 (some "1 2\n3 4".toList) (some "3\n7".toList) (some "3\n8".toList)
        (fun _ => 0) (fun _ => 0) ≠ some (.exit (-1)) :=
  have h := C11_exit_code_is_AC_or_WA 8 "1 2\n3 4".toList "3\n7".toList "3\n8".toList
    [1, 2, 3, 4] [3, 7] [3, 8] 0 0 0 (fun _ => 0) (fun _ => 0) (fun _ => 0)
    (by decide) (by decide) (by decide) (by decide) (by decide) (by decide)
  ⟨h.1.resolve_left (by decide), h.2.2.2.2.1.resolve_right (by decide), h.2.2.2.2.2.2⟩

/-- C12 (as amended): no program checks what `fopen` returns.  A null
stream that the program reads from makes the run undefined, so that it
returns neither exit code 0 nor 1: the stream that drives the loop
always, the other scanned stream as soon as the driving file yields an
integer.  The file a variant never reads has no effect: with a null
stream in its place the result is what it is with any opened file. -/
theorem C12_null_stream_read_or_ignored (fuel : Nat) (x y z : Option (List Char))
    (f : List Char) (v : Int) (vs : List Int) (a b std_ans : Int) (junk ja jb : Junk)
    (hf : ints f = some (v :: vs)) :
    (Example.Spj0.main (fuel + 1) none y z a b junk = some .undefined ∧
      ExampleData.Spj0.main (fuel + 1) none y z a b junk = some .undefined ∧
      SpjC.main (fuel + 1) none y z a b junk = some .undefined ∧
      Example.Spj1.main (fuel + 1) x none z std_ans junk = some .undefined ∧
      ExampleData.Spj1.main (fuel + 1) x none z std_ans junk = some .undefined ∧
      Example.Spj.main (fuel + 1) x y none ja jb = some .undefined) ∧
    (Example.Spj0.main (fuel + 1) (some f) y none a b junk = some .undefined ∧
      ExampleData.Spj0.main (fuel + 1) (some f) y none a b junk = some .undefined ∧
      SpjC.main (fuel + 1) (some f) none z a b junk = some .undefined ∧
      Example.Spj1.main (fuel + 1) x (some f) none std_ans junk = some .undefined ∧
      ExampleData.Spj1.main (fuel + 1) x (some f) none std_ans junk = some .undefined ∧
      Example.Spj.main (fuel + 1) none y (some f) ja jb = some .undefined) ∧
    (Example.Spj0.main fuel x none z a b junk = Example.Spj0.main fuel x y z a b junk ∧
      ExampleData.Spj0.main fuel x none z a b junk
        = ExampleData.Spj0.main fuel x y z a b junk ∧
      SpjC.main fuel x y none a b junk = SpjC.main fuel x y z a b junk ∧
      Example.Spj1.main fuel none y z std_ans junk
        = Example.Spj1.main fuel x y z std_ans junk ∧
      ExampleData.Spj1.main fuel none y z std_ans junk
        = ExampleData.Spj1.main fuel x y z std_ans junk ∧
      Example.Spj.main fuel x none z ja jb = Example.Spj.main fuel x y z ja jb) := by
  have h2 := fscanf_dd_ret_of_cons a b hf
  have h1 := fscanf_d_ret_of_cons std_ans hf
  have h0 := fscanf_d_ret_of_cons 0 hf
  have hA : ∀ u : Option (List Char), run sumStep (fuel + 1)
      { f_in := none, f_user := u, a := a, b := b, junk := junk } = some .undefined := by
    intro u; simp [run, sumStep]
  have hB : ∀ u : Option (List Char), run valStep (fuel + 1)
      { f_out := none, f_user := u, std_ans := std_ans, junk := junk } = some .undefined := by
    intro u; simp [run, valStep]
  have hU : ∀ u : Option (List Char), run userStep1 (fuel + 1)
      { f_user := none, f_in := u, ans := 0, junkA := ja, junkB := jb } = some .undefined := by
    intro u; simp [run, userStep1]
  have hA' : run sumStep (fuel + 1)
      { f_in := some f, f_user := none, a := a, b := b, junk := junk } = some .undefined := by
    simp [run, sumStep, h2]
  have hB' : run valStep (fuel + 1)
      { f_out := some f, f_user := none, std_ans := std_ans, junk := junk }
        = some .undefined := by
    simp [run, valStep, h1]
  have hU' : run userStep1 (fuel + 1)
      { f_user := some f, f_in := none, ans := 0, junkA := ja, junkB := jb }
        = some .undefined := by
    simp [run, userStep1, h0]
  exact ⟨⟨hA z, hA z, hA y, hB z, hB z, hU x⟩, ⟨hA', hA', hA', hB', hB', hU'⟩,
    ⟨rfl, rfl, rfl, rfl, rfl, rfl⟩⟩

/-- C12 (as amended) at the file "1 2" in the role of the stream that is
read while the other one is null. -/
theorem C12_null_stream_read_or_ignored_witness :
    Example.Spj0.main 1 none none none 0 0 (fun _ => 0) = some .undefined ∧
    Example.Spj0.main 1 (some "1 2".toList) none none 0 0 (fun _ => 0) = some .undefined ∧
    Example.Spj.main 1 none none (some "1 2".toList) (fun _ => 0) (fun _ => 0)
      = some .undefined :=
  have h := C12_null_stream_read_or_ignored 0 none none none "1 2".toList 1 [2] 0 0 0
    (fun _ => 0) (fun _ => 0) (fun _ => 0) (by decide)
  ⟨h.1.1, h.2.1.1, h.2.1.2.2.2.2.2⟩

/-- C12 as stated fails: with a null stream for `args[2]`, the file that
`spj.0.cpp` never reads, the program returns exit code 0 on input "1 2"
and candidate "3", and exit code 1 on candidate "4"; and with a null
candidate stream and an empty input file it returns exit code 0. -/
theorem C12_counterexample :
    Example.Spj0.main 4 (some "1 2".toList) none (some "3".toList) 0 0 (fun _ => 0)
      = some (.exit 0) ∧
    Example.Spj0.main 4 (some "1 2".toList) none (some "4".toList) 0 0 (fun _ => 0)
      = some (.exit 1) ∧
    Example.Spj0.main 4 (some []) (some []) none 0 0 (fun _ => 0) = some (.exit 0) := by
  decide

/-- C13: equal consumption in the reference-driven loops (written out for
`spj.0.cpp` and `spj.1.cpp`; `spj_0.cpp`, `spj.c` and `spj_1.cpp` run the
same loops from the same states).  On a reference of `n` expected values
and a candidate holding the integers `C`: at the `k`-th loop-iteration
boundary `k` expected values (pairs in Mode A) have been taken from the
reference and exactly the first `k` integers from the candidate, and these
were the expected ones; a run that returns `AC` stops at boundary `n`,
where what is left of the candidate is `C` without its first `n` integers;
a run that returns `WA` stops in the trip after some boundary `i < n`,
where `i` integers were consumed and the failing read leaves `C` without
its first `i + 1` integers. -/
theorem C13_equal_consumption (fuel : Nat) (ref cand : List Char)
    (unread : Option (List Char)) (P : List (Int × Int)) (E C : List Int)
    (a b std_ans : Int) (junk : Junk) (s0 : SumState) (v0 : ValState)
    (hs0 : s0 = { f_in := some ref, f_user := some cand, a := a, b := b, junk := junk })
    (hv0 : v0 = { f_out := some ref, f_user := some cand, std_ans := std_ans, junk := junk })
    (hcand : ints cand = some C) :
    (ints ref = some (pairInts P) →
      (∀ (k : Nat) (s : SumState), stateAfter sumStep k s0 = some s →
        k ≤ P.length ∧ k ≤ C.length ∧ C.take k = (pairSums P).take k ∧
        ∃ fin' fu', s.f_in = some fin' ∧ s.f_user = some fu' ∧
          ints fin' = some (pairInts (P.drop k)) ∧ ints fu' = some (C.drop k)) ∧
      (Example.Spj0.main fuel (some ref) unread (some cand) a b junk = some (.exit AC) →
        P.length ≤ C.length ∧
        ∃ s fu', stateAfter sumStep P.length s0 = some s ∧ sumStep s = .stop (.exit AC) ∧
          s.f_user = some fu' ∧ ints fu' = some (C.drop P.length)) ∧
      (Example.Spj0.main fuel (some ref) unread (some cand) a b junk = some (.exit WA) →
        ∃ i s fu', i < P.length ∧ i ≤ C.length ∧
          stateAfter sumStep i s0 = some s ∧ sumStep s = .stop (.exit WA) ∧
          s.f_user = some fu' ∧ ints fu' = some (C.drop i) ∧
          ∀ x : Int, ints (fscanf_d fu' x).file = some (C.drop (i + 1)))) ∧
    (ints ref = some E →
      (∀ (k : Nat) (s : ValState), stateAfter valStep k v0 = some s →
        k ≤ E.length ∧ k ≤ C.length ∧ C.take k = E.take k ∧
        ∃ fo' fu', s.f_out = some fo' ∧ s.f_user = some fu' ∧
          ints fo' = some (E.drop k) ∧ ints fu' = some (C.drop k)) ∧
      (Example.Spj1.main fuel unread (some ref) (some cand) std_ans junk = some (.exit AC) →
        E.length ≤ C.length ∧
        ∃ s fu', stateAfter valStep E.length v0 = some s ∧ valStep s = .stop (.exit AC) ∧
          s.f_user = some fu' ∧ ints fu' = some (C.drop E.length)) ∧
      (Example.Spj1.main fuel unread (some ref) (some cand) std_ans junk = some (.exit WA) →
        ∃ i s fu', i < E.length ∧ i ≤ C.length ∧
          stateAfter valStep i v0 = some s ∧ valStep s = .stop (.exit WA) ∧
          s.f_user = some fu' ∧ ints fu' = some (C.drop i) ∧
          ∀ x : Int, ints (fscanf_d fu' x).file = some (C.drop (i + 1)))) := by
  subst hs0; subst hv0
  constructor
  · intro href
    refine ⟨?_, ?_, ?_⟩
    · intro k s hk
      obtain ⟨h1, h2, h3, fin', fu', a', b', junk', rfl, h4, h5⟩ :=
        stateAfter_sumStep k ref cand P C a b junk s href hcand hk
      exact ⟨h1, h2, h3, fin', fu', rfl, rfl, h4, h5⟩
    · intro hrun
      obtain ⟨k, s, _, hk, hstop⟩ := run_eq_some sumStep fuel _ _ hrun
      obtain ⟨h1, h2, _, fin', fu', a', b', junk', rfl, h4, h5⟩ :=
        stateAfter_sumStep k ref cand P C a b junk s href hcand hk
      rcases sumStep_pairs a' b' junk' h4 h5 with ⟨hnil, _⟩ | ⟨p, P', _, hcase⟩
      · have hlen : P.length ≤ k := List.drop_eq_nil_iff.mp hnil
        have hkn : k = P.length := by omega
        subst hkn
        exact ⟨h2, _, fu', hk, hstop, rfl, h5⟩
      · rcases hcase with ⟨hwa, _⟩ | ⟨_, _, _, _, hnext, _⟩
        · rw [hwa] at hstop
          exact absurd hstop stop_WA_ne_stop_AC
        · rw [hnext] at hstop; cases hstop
    · intro hrun
      obtain ⟨k, s, _, hk, hstop⟩ := run_eq_some sumStep fuel _ _ hrun
      obtain ⟨h1, h2, _, fin', fu', a', b', junk', rfl, h4, h5⟩ :=
        stateAfter_sumStep k ref cand P C a b junk s href hcand hk
      rcases sumStep_pairs a' b' junk' h4 h5 with ⟨_, hac⟩ | ⟨p, P', hP, _⟩
      · rw [hac] at hstop
        exact absurd hstop.symm stop_WA_ne_stop_AC
      · have hlt : k < P.length := by
          by_contra hge
          rw [List.drop_eq_nil_iff.mpr (by omega)] at hP
          cases hP
        refine ⟨k, _, fu', hlt, h2, hk, hstop, rfl, h5, ?_⟩
        intro x
        have := ints_fscanf_d_file x h5
        simpa [Nat.add_comm] using this
  · intro href
    refine ⟨?_, ?_, ?_⟩
    · intro k s hk
      obtain ⟨h1, h2, h3, fo', fu', std', junk', rfl, h4, h5⟩ :=
        stateAfter_valStep k ref cand E C std_ans junk s href hcand hk
      exact ⟨h1, h2, h3, fo', fu', rfl, rfl, h4, h5⟩
    · intro hrun
      obtain ⟨k, s, _, hk, hstop⟩ := run_eq_some valStep fuel _ _ hrun
      obtain ⟨h1, h2, _, fo', fu', std', junk', rfl, h4, h5⟩ :=
        stateAfter_valStep k ref cand E C std_ans junk s href hcand hk
      rcases valStep_vals std' junk' h4 h5 with ⟨hnil, _⟩ | ⟨e, E', _, hcase⟩
      · have hlen : E.length ≤ k := List.drop_eq_nil_iff.mp hnil
        have hkn : k = E.length := by omega
        subst hkn
        exact ⟨h2, _, fu', hk, hstop, rfl, h5⟩
      · rcases hcase with ⟨hwa, _⟩ | ⟨_, _, _, _, hnext, _⟩
        · rw [hwa] at hstop
          exact absurd hstop stop_WA_ne_stop_AC
        · rw [hnext] at hstop; cases hstop
    · intro hrun
      obtain ⟨k, s, _, hk, hstop⟩ := run_eq_some valStep fuel _ _ hrun
      obtain ⟨h1, h2, _, fo', fu', std', junk', rfl, h4, h5⟩ :=
        stateAfter_valStep k ref cand E C std_ans junk s href hcand hk
      rcases valStep_vals std' junk' h4 h5 with ⟨_, hac⟩ | ⟨e, E', hE, _⟩
      · rw [hac] at hstop
        exact absurd hstop.symm stop_WA_ne_stop_AC
      · have hlt : k < E.length := by
          by_contra hge
          rw [List.drop_eq_nil_iff.mpr (by omega)] at hE
          cases hE
        refine ⟨k, _, fu', hlt, h2, hk, hstop, rfl, h5, ?_⟩
        intro x
        have := ints_fscanf_d_file x h5
        simpa [Nat.add_comm] using this

/-- C13 at input "1 2\n3 4" with candidate "3\n7" (`AC` at boundary 2,
nothing left of the candidate) and at answer "5\n9" with candidate "5"
(`WA` after at most 2 candidate integers). -/
theorem C13_equal_consumption_witness :
    (2 ≤ 2 ∧
      ∃ s fu', stateAfter sumStep 2
          { f_in := some "1 2\n3 4".toList, f_user := some "3\n7".toList, a := 0, b := 0,
            junk := fun _ => 0 } = some s ∧
        sumStep s = .stop (.exit AC) ∧ s.f_user = some fu' ∧ ints fu' = some []) ∧
    (∃ i s fu', i < 2 ∧ i ≤ 1 ∧
      stateAfter valStep i
          { f_out := some "5\n9".toList, f_user := some "5".toList, std_ans := 0,
            junk := fun _ => 0 } = some s ∧
        valStep s = .stop (.exit WA) ∧ s.f_user = some fu' ∧
        ints fu' = some ([5].drop i) ∧
        ∀ x : Int, ints (fscanf_d fu' x).file = some ([5].drop (i + 1))) :=
  ⟨((C13_equal_consumption 8 "1 2\n3 4".toList "3\n7".toList none [(1, 2), (3, 4)] [] [3, 7]
      0 0 0 (fun _ => 0) _ _ rfl rfl (by decide)).1 (by decide)).2.1 (by decide),
   ((C13_equal_consumption 8 "5\n9".toList "5".toList none [] [5, 9] [5]
      0 0 0 (fun _ => 0) _ _ rfl rfl (by decide)).2 (by decide)).2.2 (by decide)⟩

/-- C14: the scanning loops terminate on files of integers.  Let the
reference file hold any integers `R` and the candidate file any integers
`C`.  With `n` the number of expected values in the driving stream
(`⌈len R / 2⌉` for `spj.0.cpp`, `spj_0.cpp`, `spj.c`, where an unpaired last
integer gives one more value; `len R` for `spj.1.cpp`, `spj_1.cpp`;
`len C` for `spj.cpp`, whose input file `R` is arbitrary too), `n + 1`
tests of the loop condition are enough for `main` to return `AC` or `WA`;
the loop has no boundary `n + 1`, so that the body never completes more
than `n` times, and at boundary `n` the condition fails without another
run of the body; and every completed trip leaves the driving stream
strictly shorter. -/
theorem C14_loops_terminate (ref cand : List Char) (unread : Option (List Char))
    (R C : List Int) (a b std_ans : Int) (junk ja jb : Junk)
    (s0 : SumState) (v0 : ValState) (u0 : UserState)
    (hs0 : s0 = { f_in := some ref, f_user := some cand, a := a, b := b, junk := junk })
    (hv0 : v0 = { f_out := some ref, f_user := some cand, std_ans := std_ans, junk := junk })
    (hu0 : u0 = { f_user := some cand, f_in := some ref, ans := 0, junkA := ja, junkB := jb })
    (href : ints ref = some R) (hcand : ints cand = some C) :
    (((Example.Spj0.main ((R.length + 1) / 2 + 1) (some ref) unread (some cand) a b junk
            = some (.exit AC) ∨
          Example.Spj0.main ((R.length + 1) / 2 + 1) (some ref) unread (some cand) a b junk
            = some (.exit WA)) ∧
        (ExampleData.Spj0.main ((R.length + 1) / 2 + 1) (some ref) unread (some cand) a b junk
            = some (.exit AC) ∨
          ExampleData.Spj0.main ((R.length + 1) / 2 + 1) (some ref) unread (some cand) a b
            junk = some (.exit WA)) ∧
        (SpjC.main ((R.length + 1) / 2 + 1) (some ref) (some cand) unread a b junk
            = some (.exit AC) ∨
          SpjC.main ((R.length + 1) / 2 + 1) (some ref) (some cand) unread a b junk
            = some (.exit WA))) ∧
      stateAfter sumStep ((R.length + 1) / 2 + 1) s0 = none ∧
      (∀ s, stateAfter sumStep ((R.length + 1) / 2) s0 = some s →
        sumStep s = .stop (.exit AC)) ∧
      (∀ k s s', stateAfter sumStep k s0 = some s → sumStep s = .next s' →
        ∃ f f', s.f_in = some f ∧ s'.f_in = some f' ∧ f'.length < f.length)) ∧
    ((Example.Spj1.main (R.length + 1) unread (some ref) (some cand) std_ans junk
          = some (.exit (if R <+: C then AC else WA)) ∧
        ExampleData.Spj1.main (R.length + 1) unread (some ref) (some cand) std_ans junk
          = some (.exit (if R <+: C then AC else WA))) ∧
      stateAfter valStep (R.length + 1) v0 = none ∧
      (∀ s, stateAfter valStep R.length v0 = some s → valStep s = .stop (.exit AC)) ∧
      (∀ k s s', stateAfter valStep k v0 = some s → valStep s = .next s' →
        ∃ f f', s.f_out = some f ∧ s'.f_out = some f' ∧ f'.length < f.length)) ∧
    ((Example.Spj.main (C.length + 1) (some ref) unread (some cand) ja jb = some (.exit AC) ∨
        Example.Spj.main (C.length + 1) (some ref) unread (some cand) ja jb
          = some (.exit WA)) ∧
      stateAfter userStep1 (C.length + 1) u0 = none ∧
      (∀ s, stateAfter userStep1 C.length u0 = some s → userStep1 s = .stop (.exit AC)) ∧
      (∀ k s s', stateAfter userStep1 k u0 = some s → userStep1 s = .next s' →
        ∃ f f', s.f_user = some f ∧ s'.f_user = some f' ∧ f'.length < f.length)) := by
  subst hs0; subst hv0; subst hu0
  refine ⟨?_, ?_, ?_⟩
  · have hnone : stateAfter sumStep ((R.length + 1) / 2 + 1)
        { f_in := some ref, f_user := some cand, a := a, b := b, junk := junk } = none := by
      cases hst : stateAfter sumStep ((R.length + 1) / 2 + 1)
          { f_in := some ref, f_user := some cand, a := a, b := b, junk := junk } with
      | none => rfl
      | some s =>
        have := (stateAfter_sumStep_ints _ ref cand R C a b junk s href hcand hst).1
        omega
    have hrun : run sumStep ((R.length + 1) / 2 + 1)
          { f_in := some ref, f_user := some cand, a := a, b := b, junk := junk }
          = some (.exit AC) ∨
        run sumStep ((R.length + 1) / 2 + 1)
          { f_in := some ref, f_user := some cand, a := a, b := b, junk := junk }
          = some (.exit WA) := by
      obtain ⟨o, ho⟩ := run_of_stateAfter_none sumStep _ _ hnone
      have hbig := run_mono sumStep ho (Nat.le_max_left _ (ref.length + 1))
      rcases run_sumStep_exit (max ((R.length + 1) / 2 + 1) (ref.length + 1)) ref cand R C
          a b junk href hcand
          (by have := Nat.le_max_right ((R.length + 1) / 2 + 1) (ref.length + 1); omega)
        with h | h
      · left
        rw [ho, ← hbig, h]
      · right
        rw [ho, ← hbig, h]
    refine ⟨⟨hrun, hrun, hrun⟩, hnone, ?_, ?_⟩
    · intro s hs
      obtain ⟨_, _, fin', fu', a', b', junk', rfl, h4, h5⟩ :=
        stateAfter_sumStep_ints _ ref cand R C a b junk s href hcand hs
      rcases sumStep_ints a' b' junk' h4 h5 with ⟨_, hac⟩ | ⟨hR, _⟩
      · exact hac
      · exact absurd (List.drop_eq_nil_iff.mpr (by omega)) hR
    · intro k s s' hs hnext
      obtain ⟨_, _, fin', fu', a', b', junk', rfl, h4, h5⟩ :=
        stateAfter_sumStep_ints k ref cand R C a b junk s href hcand hs
      rcases sumStep_ints a' b' junk' h4 h5 with ⟨_, hac⟩ | ⟨_, hcase⟩
      · rw [hac] at hnext; cases hnext
      · rcases hcase with hwa | ⟨fin'', _, _, _, hn, _, _, _, hlt⟩
        · rw [hwa] at hnext; cases hnext
        · rw [hn] at hnext
          injection hnext with hnext
          subst hnext
          exact ⟨fin', fin'', rfl, rfl, hlt⟩
  · have hnone : stateAfter valStep (R.length + 1)
        { f_out := some ref, f_user := some cand, std_ans := std_ans, junk := junk }
        = none := by
      cases hst : stateAfter valStep (R.length + 1)
          { f_out := some ref, f_user := some cand, std_ans := std_ans, junk := junk } with
      | none => rfl
      | some s =>
        have := (stateAfter_valStep _ ref cand R C std_ans junk s href hcand hst).1
        omega
    have hrun : run valStep (R.length + 1)
        { f_out := some ref, f_user := some cand, std_ans := std_ans, junk := junk }
        = some (.exit (if R <+: C then AC else WA)) := by
      obtain ⟨o, ho⟩ := run_of_stateAfter_none valStep _ _ hnone
      have hbig := run_mono valStep ho (Nat.le_max_left _ (ref.length + 1))
      rw [run_valStep_ints R _ ref cand C std_ans junk href hcand
        (by have := Nat.le_max_right (R.length + 1) (ref.length + 1); omega)] at hbig
      rw [ho, ← hbig]
    refine ⟨⟨hrun, hrun⟩, hnone, ?_, ?_⟩
    · intro s hs
      obtain ⟨_, _, _, fo', fu', std', junk', rfl, h4, h5⟩ :=
        stateAfter_valStep _ ref cand R C std_ans junk s href hcand hs
      rcases valStep_vals std' junk' h4 h5 with ⟨_, hac⟩ | ⟨e, E', hE, _⟩
      · exact hac
      · rw [List.drop_eq_nil_iff.mpr (Nat.le_refl _)] at hE
        cases hE
    · intro k s s' hs hnext
      obtain ⟨_, _, _, fo', fu', std', junk', rfl, h4, h5⟩ :=
        stateAfter_valStep k ref cand R C std_ans junk s href hcand hs
      rcases valStep_vals std' junk' h4 h5 with ⟨_, hac⟩ | ⟨e, E', _, hcase⟩
      · rw [hac] at hnext; cases hnext
      · rcases hcase with ⟨hwa, _⟩ | ⟨_, fo'', _, _, hn, _, _, hlt, _⟩
        · rw [hwa] at hnext; cases hnext
        · rw [hn] at hnext
          injection hnext with hnext
          subst hnext
          exact ⟨fo', fo'', rfl, rfl, hlt⟩
  · have hnone : stateAfter userStep1 (C.length + 1)
        { f_user := some cand, f_in := some ref, ans := 0, junkA := ja, junkB := jb }
        = none := by
      cases hst : stateAfter userStep1 (C.length + 1)
          { f_user := some cand, f_in := some ref, ans := 0, junkA := ja, junkB := jb } with
      | none => rfl
      | some s =>
        have := (stateAfter_userStep1_ints _ ref cand R C 0 ja jb s href hcand hst).1
        omega
    have hrun : Example.Spj.main (C.length + 1) (some ref) unread (some cand) ja jb
          = some (.exit AC) ∨
        Example.Spj.main (C.length + 1) (some ref) unread (some cand) ja jb
          = some (.exit WA) := by
      rw [spj_main_eq_run]
      obtain ⟨o, ho⟩ := run_of_stateAfter_none userStep1 _ _ hnone
      have hbig := run_mono userStep1 ho (Nat.le_max_left _ (cand.length + 1))
      rcases run_userStep1_exit (max (C.length + 1) (cand.length + 1)) ref cand R C 0 ja jb
          href hcand
          (by have := Nat.le_max_right (C.length + 1) (cand.length + 1); omega)
        with h | h
      · left
        rw [ho, ← hbig, h]
      · right
        rw [ho, ← hbig, h]
    refine ⟨hrun, hnone, ?_, ?_⟩
    · intro s hs
      obtain ⟨_, fin', fu', ans', ja', jb', rfl, h4, h5⟩ :=
        stateAfter_userStep1_ints _ ref cand R C 0 ja jb s href hcand hs
      rcases userStep1_ints ans' ja' jb' h4 h5 with ⟨_, hac⟩ | ⟨hC, _⟩
      · exact hac
      · exact absurd (List.drop_eq_nil_iff.mpr (Nat.le_refl _)) hC
    · intro k s s' hs hnext
      obtain ⟨_, fin', fu', ans', ja', jb', rfl, h4, h5⟩ :=
        stateAfter_userStep1_ints k ref cand R C 0 ja jb s href hcand hs
      rcases userStep1_ints ans' ja' jb' h4 h5 with ⟨_, hac⟩ | ⟨_, hcase⟩
      · rw [hac] at hnext; cases hnext
      · rcases hcase with hwa | ⟨_, fu'', _, hn, _, _, hlt⟩
        · rw [hwa] at hnext; cases hnext
        · rw [hn] at hnext
          injection hnext with hnext
          subst hnext
          exact ⟨fu', fu'', rfl, rfl, hlt⟩

/-- C14 at the odd-count file "1 2 3" as reference with candidate "3 5":
two expected values in `spj.0.cpp` (3 and 3 + 2), so three tests of the
condition give `AC` and the loop has no boundary 3; three answers in
`spj.1.cpp`, where four tests give `WA`; two candidate integers in
`spj.cpp`, where three tests give `WA` (its `b` holds 0 when 3 is read
alone, and 3 + 0 is not 5). -/
theorem C14_loops_terminate_witness :
    Example.Spj0.main 3 (some "1 2 3".toList) none (some "3 5".toList) 0 0 (fun _ => 0)
      = some (.exit AC) ∧
    stateAfter sumStep 3
        { f_in := some "1 2 3".toList, f_user := some "3 5".toList, a := 0, b := 0,
          junk := fun _ => 0 } = none ∧
    Example.Spj1.main 4 none (some "1 2 3".toList) (some "3 5".toList) 0 (fun _ => 0)
      = some (.exit WA) ∧
    Example.Spj.main 3 (some "1 2 3".toList) none (some "3 5".toList) (fun _ => 0)
      (fun _ => 0) = some (.exit WA) :=
  have h := C14_loops_terminate "1 2 3".toList "3 5".toList none [1, 2, 3] [3, 5]
    0 0 0 (fun _ => 0) (fun _ => 0) (fun _ => 0) _ _ _ rfl rfl rfl (by decide) (by decide)
  ⟨h.1.1.1.resolve_right (by decide), h.1.2.1, h.2.1.1.1, h.2.2.1.resolve_left (by decide)⟩

/-- C15: exact characterisation of `spj.cpp` (`METHOD == 1`), whose loop
is driven by the candidate.  On an input file of pairs `P` and a candidate
file of integers `C`, it returns `WA` if and only if some index `i` within
both holds a candidate integer `C[i]` different from the `int` sum of the
pair `P[i]`, and `AC` otherwise; so it returns `AC` whenever `C` is an
initial segment of the expected sums, the empty candidate included.  Fuel
beyond the length of the candidate file is enough. -/
theorem C15_spj_wrong_answer_iff (fuel : Nat) (inp cand : List Char)
    (unread : Option (List Char)) (P : List (Int × Int)) (C : List Int) (ja jb : Junk)
    (hin : ints inp = some (pairInts P)) (hcand : ints cand = some C)
    (hfuel : cand.length < fuel) :
    (Example.Spj.main fuel (some inp) unread (some cand) ja jb = some (.exit WA) ↔
      ∃ (i : Nat) (c : Int) (p : Int × Int),
        C[i]? = some c ∧ P[i]? = some p ∧ c ≠ addInt p.1 p.2) ∧
    (Example.Spj.main fuel (some inp) unread (some cand) ja jb = some (.exit AC) ↔
      ¬ ∃ (i : Nat) (c : Int) (p : Int × Int),
        C[i]? = some c ∧ P[i]? = some p ∧ c ≠ addInt p.1 p.2) ∧
    (C <+: pairSums P →
      Example.Spj.main fuel (some inp) unread (some cand) ja jb = some (.exit AC)) := by
  have hrun := run_userStep1_ints C fuel inp cand P 0 ja jb hin hcand hfuel
  rw [← spj_main_eq_run fuel (some inp) unread (some cand) ja jb, ← pairSums_length P] at hrun
  have hiff : C.take (pairSums P).length <+: pairSums P ↔
      ¬ ∃ (i : Nat) (c : Int) (p : Int × Int),
        C[i]? = some c ∧ P[i]? = some p ∧ c ≠ addInt p.1 p.2 := by
    rw [take_prefix_iff_getElem]
    constructor
    · rintro h ⟨i, c, p, hc, hp, hne⟩
      exact hne (h i c (addInt p.1 p.2) hc (by simp [pairSums, hp]))
    · intro h i c e hc he
      by_contra hne
      simp only [pairSums, List.getElem?_map, Option.map_eq_some'] at he
      obtain ⟨p, hp, rfl⟩ := he
      exact h ⟨i, c, p, hc, hp, hne⟩
  by_cases hp : C.take (pairSums P).length <+: pairSums P
  · rw [if_pos hp] at hrun
    have hno := hiff.mp hp
    refine ⟨?_, ?_, fun _ => hrun⟩
    · rw [hrun]
      constructor
      · intro h; exact absurd h (by decide)
      · intro h; exact absurd h hno
    · rw [hrun]
      exact ⟨fun _ => hno, fun _ => rfl⟩
  · rw [if_neg hp] at hrun
    have hex : ∃ (i : Nat) (c : Int) (p : Int × Int),
        C[i]? = some c ∧ P[i]? = some p ∧ c ≠ addInt p.1 p.2 := by
      by_contra hno
      exact hp (hiff.mpr hno)
    refine ⟨?_, ?_, ?_⟩
    · rw [hrun]
      exact ⟨fun _ => hex, fun _ => rfl⟩
    · rw [hrun]
      constructor
      · intro h; exact absurd h (by decide)
      · intro h; exact absurd hex h
    · intro hpre
      exfalso
      apply hp
      obtain ⟨t, ht⟩ := hpre
      rw [← ht, List.length_append, List.take_of_length_le (Nat.le_add_right _ _)]
      exact List.prefix_append C t

/-- C15 at input "1 2\n3 4": the empty candidate and the short candidate
"3" give `AC`, the candidate "3\n8" gives `WA` (index 1: 8 against 7). -/
theorem C15_spj_wrong_answer_iff_witness :
    Example.Spj.main 8 (some "1 2\n3 4".toList) none (some []) (fun _ => 0) (fun _ => 0)
      = some (.exit AC) ∧
    Example.Spj.main 8 (some "1 2\n3 4".toList) none (some "3".toList) (fun _ => 0)
      (fun _ => 0) = some (.exit AC) ∧
    Example.Spj.main 8 (some "1 2\n3 4".toList) none (some "3\n8".toList) (fun _ => 0)
      (fun _ => 0) = some (.exit WA) :=
  ⟨(C15_spj_wrong_answer_iff 8 "1 2\n3 4".toList [] none [(1, 2), (3, 4)] []
      (fun _ => 0) (fun _ => 0) (by decide) (by decide) (by decide)).2.2 (by decide),
   (C15_spj_wrong_answer_iff 8 "1 2\n3 4".toList "3".toList none [(1, 2), (3, 4)] [3]
      (fun _ => 0) (fun _ => 0) (by decide) (by decide) (by decide)).2.2 (by decide),
   (C15_spj_wrong_answer_iff 8 "1 2\n3 4".toList "3\n8".toList none [(1, 2), (3, 4)] [3, 8]
      (fun _ => 0) (fun _ => 0) (by decide) (by decide) (by decide)).1.mpr
      ⟨1, 8, (3, 4), by decide, by decide, by decide⟩⟩

/-- C16: an unpaired last integer in the input of `spj.0.cpp`, `spj_0.cpp`
and `spj.c`.  Let the input file hold `k ≥ 1` pairs, the last one being
`(ak, bk)`, followed by one more integer `x`.  The two-integer read of
`x` alone returns 1, not `EOF`, and leaves `b` as it was; so the expected
values are the `k` sums followed by the `int` sum `x + bk`: the exit code
is `AC` exactly when these `k + 1` values begin the candidate's integers.
A candidate holding just the `k` correct sums gets `WA`: the loop
completes `k` trips and the body of trip `k + 1` rejects. -/
theorem C16_unpaired_trailing_integer (fuel : Nat) (ref cand f : List Char)
    (unread : Option (List Char)) (P : List (Int × Int)) (ak bk x : Int) (C : List Int)
    (a b : Int) (junk : Junk)
    (href : ints ref = some (pairInts (P ++ [(ak, bk)]) ++ [x]))
    (hfuel : ref.length < fuel) :
    (ints f = some [x] → fscanf_dd f a b = ⟨1, x, b, []⟩) ∧
    (ints cand = some C →
      Example.Spj0.main fuel (some ref) unread (some cand) a b junk
        = some (.exit (if pairSums (P ++ [(ak, bk)]) ++ [addInt x bk] <+: C
            then AC else WA)) ∧
      ExampleData.Spj0.main fuel (some ref) unread (some cand) a b junk
        = some (.exit (if pairSums (P ++ [(ak, bk)]) ++ [addInt x bk] <+: C
            then AC else WA)) ∧
      SpjC.main fuel (some ref) (some cand) unread a b junk
        = some (.exit (if pairSums (P ++ [(ak, bk)]) ++ [addInt x bk] <+: C
            then AC else WA))) ∧
    (ints cand = some (pairSums (P ++ [(ak, bk)])) →
      (Example.Spj0.main fuel (some ref) unread (some cand) a b junk = some (.exit WA) ∧
        ExampleData.Spj0.main fuel (some ref) unread (some cand) a b junk
          = some (.exit WA) ∧
        SpjC.main fuel (some ref) (some cand) unread a b junk = some (.exit WA)) ∧
      ∃ s, stateAfter sumStep (P.length + 1)
            { f_in := some ref, f_user := some cand, a := a, b := b, junk := junk } = some s ∧
        sumStep s = .stop (.exit WA)) := by
  have hlast : ((P ++ [(ak, bk)]).map Prod.snd).getLastD b = bk := by
    rw [List.map_append, List.map_cons, List.map_nil, List.getLastD_concat]
  have hrun : ∀ C : List Int, ints cand = some C →
      run sumStep fuel { f_in := some ref, f_user := some cand, a := a, b := b, junk := junk }
        = some (.exit (if pairSums (P ++ [(ak, bk)]) ++ [addInt x bk] <+: C
            then AC else WA)) := by
    intro C hcand
    have h := run_sumStep_odd (P ++ [(ak, bk)]) fuel ref cand C a b x junk href hcand hfuel
    rw [hlast] at h
    exact h
  refine ⟨fun hf => fscanf_dd_single a b hf, ?_, ?_⟩
  · intro hcand
    exact ⟨hrun C hcand, hrun C hcand, hrun C hcand⟩
  · intro hcand
    have h := hrun _ hcand
    rw [if_neg (not_prefix_of_length_lt (by simp))] at h
    refine ⟨⟨h, h, h⟩, ?_⟩
    obtain ⟨fin', fu', a', junk', hst, hf, hg⟩ :=
      stateAfter_sumStep_sums (P ++ [(ak, bk)]) ref cand [x] [] a b junk href
        (by simpa using hcand)
    rw [List.length_append, List.length_singleton, hlast] at hst
    refine ⟨_, hst, ?_⟩
    have h2 := fscanf_dd_single a' bk hf
    have h1 := fscanf_d_eof (junk' 0) (ints_nil hg)
    simp [sumStep, h2, h1, EOF]

/-- C16 at input "1 2\n3 4\n5" (two pairs and the integer 5): the read of
"5" alone returns 1; the candidate "3\n7" of the two correct sums gets
`WA`, after two completed trips; the candidate "3\n7\n9" (9 = 5 + 4) gets
`AC`. -/
theorem C16_unpaired_trailing_integer_witness :
    fscanf_dd "5".toList 3 4 = ⟨1, 5, 4, []⟩ ∧
    Example.Spj0.main 12 (some "1 2\n3 4\n5".toList) none (some "3\n7\n9".toList) 0 0
      (fun _ => 0) = some (.exit AC) ∧
    (Example.Spj0.main 12 (some "1 2\n3 4\n5".toList) none (some "3\n7".toList) 0 0
        (fun _ => 0) = some (.exit WA) ∧
      ∃ s, stateAfter sumStep 2
            { f_in := some "1 2\n3 4\n5".toList, f_user := some "3\n7".toList, a := 0, b := 0,
              junk := fun _ => 0 } = some s ∧
        sumStep s = .stop (.exit WA)) :=
  have h9 := C16_unpaired_trailing_integer 12 "1 2\n3 4\n5".toList "3\n7\n9".toList "5".toList
    none [(1, 2)] 3 4 5 [3, 7, 9] 3 4 (fun _ => 0) (by decide) (by decide)
  have h0 := C16_unpaired_trailing_integer 12 "1 2\n3 4\n5".toList "3\n7\n9".toList "5".toList
    none [(1, 2)] 3 4 5 [3, 7, 9] 0 0 (fun _ => 0) (by decide) (by decide)
  have h7 := C16_unpaired_trailing_integer 12 "1 2\n3 4\n5".toList "3\n7".toList "5".toList
    none [(1, 2)] 3 4 5 [3, 7] 0 0 (fun _ => 0) (by decide) (by decide)
  ⟨h9.1 (by decide), (h0.2.1 (by decide)).1.trans (by decide),
   (h7.2.2 (by decide)).1.1, (h7.2.2 (by decide)).2⟩

/-- C17: the Mode A expected value is a 32-bit `int` sum.  Let the input
file hold the pair `(a, b)` and let the candidate file begin with the
integer `c`.  Then `a`, `b` and `c` lie in `[-2^31, 2^31)`; the programs
compare `c` with `a + b` wrapped modulo `2^32` into that range (exit code
`AC` when equal, `WA` otherwise); the wrapped value is the exact sum
`a + b` if and only if `-2^31 ≤ a + b < 2^31`; and in that case the exit
code is `AC` if and only if `c = a + b`. -/
theorem C17_expected_value_is_int_sum (fuel : Nat) (ref cand : List Char)
    (unread : Option (List Char)) (a b c : Int) (C : List Int) (a0 b0 : Int) (junk : Junk)
    (href : ints ref = some [a, b]) (hcand : ints cand = some (c :: C))
    (hfuel : ref.length < fuel) :
    ((-(2 : Int) ^ 31 ≤ a ∧ a < (2 : Int) ^ 31) ∧ (-(2 : Int) ^ 31 ≤ b ∧ b < (2 : Int) ^ 31) ∧
      (-(2 : Int) ^ 31 ≤ c ∧ c < (2 : Int) ^ 31)) ∧
    (Example.Spj0.main fuel (some ref) unread (some cand) a0 b0 junk
        = some (.exit (if c = (a + b + 2 ^ 31) % 2 ^ 32 - 2 ^ 31 then AC else WA)) ∧
      ExampleData.Spj0.main fuel (some ref) unread (some cand) a0 b0 junk
        = some (.exit (if c = (a + b + 2 ^ 31) % 2 ^ 32 - 2 ^ 31 then AC else WA)) ∧
      SpjC.main fuel (some ref) (some cand) unread a0 b0 junk
        = some (.exit (if c = (a + b + 2 ^ 31) % 2 ^ 32 - 2 ^ 31 then AC else WA))) ∧
    ((a + b + 2 ^ 31) % 2 ^ 32 - 2 ^ 31 = a + b ↔
      -(2 : Int) ^ 31 ≤ a + b ∧ a + b < (2 : Int) ^ 31) ∧
    (-(2 : Int) ^ 31 ≤ a + b → a + b < (2 : Int) ^ 31 →
      (Example.Spj0.main fuel (some ref) unread (some cand) a0 b0 junk = some (.exit AC) ↔
        c = a + b) ∧
      (ExampleData.Spj0.main fuel (some ref) unread (some cand) a0 b0 junk = some (.exit AC) ↔
        c = a + b) ∧
      (SpjC.main fuel (some ref) (some cand) unread a0 b0 junk = some (.exit AC) ↔
        c = a + b)) := by
  have ha := (toInt32_eq_self_iff a).mp (ints_int32 _ ref href a (by simp))
  have hb := (toInt32_eq_self_iff b).mp (ints_int32 _ ref href b (by simp))
  have hc := (toInt32_eq_self_iff c).mp (ints_int32 _ cand hcand c (by simp))
  have hwrap : (a + b + 2 ^ 31) % 2 ^ 32 - 2 ^ 31 = toInt32 (a + b) := rfl
  have hrun : run sumStep fuel
      { f_in := some ref, f_user := some cand, a := a0, b := b0, junk := junk }
      = some (.exit (if c = (a + b + 2 ^ 31) % 2 ^ 32 - 2 ^ 31 then AC else WA)) := by
    have h := run_sumStep_ints [(a, b)] fuel ref cand (c :: C) a0 b0 junk href hcand hfuel
    rw [h, hwrap]
    by_cases heq : c = toInt32 (a + b)
    · rw [if_pos heq, if_pos]
      simp [pairSums, addInt, List.cons_prefix_cons, heq]
    · rw [if_neg heq, if_neg]
      intro hp
      simp only [pairSums, addInt, List.map_cons, List.map_nil, List.cons_prefix_cons] at hp
      exact heq hp.1.symm
  have hmath := toInt32_eq_self_iff (a + b)
  rw [← hwrap] at hmath
  refine ⟨⟨ha, hb, hc⟩, ⟨hrun, hrun, hrun⟩, hmath, ?_⟩
  intro h1 h2
  have hsum : (a + b + 2 ^ 31) % 2 ^ 32 - 2 ^ 31 = a + b := hmath.mpr ⟨h1, h2⟩
  have hiff : run sumStep fuel
      { f_in := some ref, f_user := some cand, a := a0, b := b0, junk := junk }
      = some (.exit AC) ↔ c = a + b := by
    rw [hrun, hsum]
    by_cases heq : c = a + b
    · rw [if_pos heq]
      exact ⟨fun _ => heq, fun _ => rfl⟩
    · rw [if_neg heq]
      constructor
      · intro h; exact absurd h (by decide)
      · intro h; exact absurd h heq
  exact ⟨hiff, hiff, hiff⟩

/-- C17 at input "2147483647 1" with candidate "-2147483648" (the sum
wraps, `AC`) and at input "20 22" with candidate "42" (`AC` because
42 = 20 + 22). -/
theorem C17_expected_value_is_int_sum_witness :
    Example.Spj0.main 16 (some "2147483647 1".toList) none (some "-2147483648".toList) 0 0
      (fun _ => 0) = some (.exit AC) ∧
    Example.Spj0.main 16 (some "20 22".toList) none (some "42".toList) 0 0 (fun _ => 0)
      = some (.exit AC) :=
  ⟨(C17_expected_value_is_int_sum 16 "2147483647 1".toList "-2147483648".toList none
      2147483647 1 (-2147483648) [] 0 0 (fun _ => 0) (by decide) (by decide)
      (by decide)).2.1.1.trans (by decide),
   ((C17_expected_value_is_int_sum 16 "20 22".toList "42".toList none
      20 22 42 [] 0 0 (fun _ => 0) (by decide) (by decide)
      (by decide)).2.2.2 (by decide) (by decide)).1.mpr (by decide)⟩

end Ana
